import Mathlib

set_option maxHeartbeats 1000000

/-!
Verification of the daily-reading pipeline (check_stats.py and the ssrn
spider) against its specification. The Python code is shallowly embedded:
records are structures with optional fields for possibly-missing JSON keys,
the file system is an explicit state, caught exceptions become explicit
result values, and Python's `list(set(xs))` is modelled as first-occurrence
deduplication.
-/

/-- A paper record from one line of a daily JSONL store. `id` and
`category` are `none` when the corresponding key is missing from the JSON
object; all remaining fields are abstracted into the opaque `payload`. -/
structure Paper where
  id : Option String
  category : Option (List String)
  payload : Nat
deriving DecidableEq

/-- Models `data.get('id', '')`: the identifier of a record, defaulting to
the empty string when the key is missing. -/
def getId (p : Paper) : String := (p.id).getD ""

/-- Models `item.get('category', [])`: the category list of a record,
defaulting to the empty list when the key is missing. -/
def getCats (p : Paper) : List String := (p.category).getD []

/-- Observable state of a daily store file: missing, readable with the
given records, or present but failing to read (an I/O error or a malformed
JSON line raising inside the read loop). -/
inductive FileState where
  | absent
  | good (papers : List Paper)
  | badRead
deriving DecidableEq

/-- The file system visible to check_stats.py: the store file for each
date (dates are modelled as integer day numbers), plus whether a rewrite
of, or a deletion of, the file at a date would succeed. -/
structure FS where
  files : Int → FileState
  writeOk : Int → Bool
  removeOk : Int → Bool

/-- Replace the file stored at date `d`. -/
def setFile (fs : FS) (d : Int) (st : FileState) : FS :=
  { fs with files := fun x => if x = d then st else fs.files x }

/-- `load_papers_data`: returns the record list and the id set; a missing
file or a failed read yields an empty list and an empty set (the read
exception is caught inside the function and only logged). -/
def load_papers_data : FileState → List Paper × Finset String
  | .absent => ([], ∅)
  | .badRead => ([], ∅)
  | .good papers => (papers, (papers.map getId).toFinset)

/-- `save_papers_data`: overwrites the file at date `d`, returning whether
the write succeeded (a raised exception is caught and reported as False). -/
def save_papers_data (fs : FS) (d : Int) (papers : List Paper) : Bool × FS :=
  if fs.writeOk d then (true, setFile fs d (.good papers)) else (false, fs)

/-- Models `os.remove` on the file at date `d`, returning whether the
deletion succeeded. -/
def removeFile (fs : FS) (d : Int) : Bool × FS :=
  if fs.removeOk d then (true, setFile fs d .absent) else (false, fs)

/-- Terminal statuses returned by perform_merge and
perform_deduplication. -/
inductive Status where
  | merge_success
  | has_new_content
  | no_new_content
  | no_data
  | error
deriving DecidableEq

/-- The union of the id sets loaded from the 7 preceding days' stores
(the loop `for i in range(1, history_days + 1): history_ids.update(...)`). -/
def historyIds (fs : FS) (d : Int) : Finset String :=
  ((List.range 7).map
    (fun (i : Nat) => (load_papers_data (fs.files (d - ((i : Int) + 1)))).2)).foldl (· ∪ ·) ∅

/-- `perform_deduplication(date)` from check_stats.py, acting on the
explicit file-system state. -/
def perform_deduplication (fs : FS) (d : Int) : Status × FS :=
  if fs.files d = .absent then (.no_data, fs)
  else
    let loaded := load_papers_data (fs.files d)
    if loaded.1 = [] then (.no_data, fs)
    else
      let duplicate_ids := loaded.2 ∩ historyIds fs d
      if duplicate_ids ≠ ∅ then
        let new_papers := loaded.1.filter (fun p => getId p ∉ duplicate_ids)
        if new_papers ≠ [] then
          let sv := save_papers_data fs d new_papers
          if sv.1 then (.has_new_content, sv.2) else (.error, sv.2)
        else
          let rm := removeFile fs d
          (.no_new_content, rm.2)
      else (.has_new_content, fs)

/-- First-occurrence lookup in an association list, as Python dict lookup
(insertion order preserved, keys unique by construction). -/
def assocFind : List (String × Paper) → String → Option Paper
  | [], _ => none
  | kv :: rest, i => if kv.1 = i then some kv.2 else assocFind rest i

/-- In-place update of the entry at a key, preserving its position, as
Python dict assignment to an existing key. -/
def assocUpdate : List (String × Paper) → String → Paper → List (String × Paper)
  | [], _, _ => []
  | kv :: rest, i, p => if kv.1 = i then (kv.1, p) :: rest else kv :: assocUpdate rest i p

/-- Models Python's `list(set(xs))` for the category list: a duplicate-free
list of the same elements. The concrete order produced by a Python set is
interpreter-dependent; it is modelled deterministically as keeping the
first occurrence of each value. -/
def setList : List String → List String
  | [] => []
  | a :: t => a :: (setList t).filter (fun x => x ≠ a)

/-- The merging loop of `perform_merge`: builds the insertion-ordered dict
`merged`. `item['id']` on a record without an id raises KeyError, as does
reading `merged[item_id]['category']` when the stored base record has no
category; both surface as `.error`. -/
def mergeLoop : List (String × Paper) → List Paper → Except Unit (List (String × Paper))
  | acc, [] => .ok acc
  | acc, item :: rest =>
    match item.id with
    | none => .error ()
    | some i =>
      match assocFind acc i with
      | none => mergeLoop (acc ++ [(i, item)]) rest
      | some base =>
        match base.category with
        | none => .error ()
        | some cs =>
          mergeLoop (assocUpdate acc i { base with category := some (cs ++ getCats item) }) rest

/-- The finalization loop of `perform_merge`:
`for v in merged.values(): v['category'] = list(set(v['category']))`,
raising KeyError when a value has no category. -/
def finalizeMerge : List (String × Paper) → Except Unit (List Paper)
  | [] => .ok []
  | kv :: rest =>
    match kv.2.category with
    | none => .error ()
    | some cs =>
      (finalizeMerge rest).map (fun tail => { kv.2 with category := some (setList cs) } :: tail)

/-- The in-memory merge of `perform_merge`: group by id, concatenate
categories onto the first occurrence, then replace each category list by
its set of distinct values. -/
def mergeRecords (papers : List Paper) : Except Unit (List Paper) :=
  (mergeLoop [] papers).bind finalizeMerge

/-- `perform_merge(date)` from check_stats.py, acting on the explicit
file-system state. -/
def perform_merge (fs : FS) (d : Int) : Status × FS :=
  if fs.files d = .absent then (.no_data, fs)
  else
    let loaded := load_papers_data (fs.files d)
    if loaded.1 = [] then (.no_data, fs)
    else
      match mergeRecords loaded.1 with
      | .error _ => (.error, fs)
      | .ok result =>
        let sv := save_papers_data fs d result
        if sv.1 then (.merge_success, sv.2) else (.error, sv.2)

/-- `main()` from check_stats.py (named checkStatsMain since Lean reserves
`main`): run merge, then (only on merge success) dedup, and map the
statuses to the process exit code. -/
def checkStatsMain (fs : FS) (d : Int) : Nat × FS :=
  let m := perform_merge fs d
  if m.1 = .merge_success then
    let dd := perform_deduplication m.2 d
    if dd.1 = .has_new_content then (0, dd.2)
    else if dd.1 = .no_new_content then (1, dd.2)
    else if dd.1 = .no_data then (1, dd.2)
    else (2, dd.2)
  else if m.1 = .no_data then (1, m.2)
  else if m.1 = .error then (2, m.2)
  else (2, m.2)

/-- A listing entry on a page fetched by the spider. `approved` is the
parsed approved date (days are modelled as naturals); `none` models an
empty or missing `approved_date` string, which the spider skips when
collecting dates. Remaining listing fields are abstracted into
`payload`. -/
structure Entry where
  id : String
  approved : Option Nat
  payload : Nat
deriving DecidableEq

/-- A record emitted by the spider for a matching entry: the listing entry
with `category` set to the single-element list of the current category
code, and the detail structure (opaque) merged in later by
`parse_detail`. -/
structure Collected where
  entry : Entry
  category : List String
  detail : Option Nat
deriving DecidableEq

/-- Failure mode of the page handler: `min()` / `max()` raising ValueError
on an empty sequence of approved dates. -/
inductive SpiderErr where
  | emptyDates
deriving DecidableEq

/-- Outcome of handling one listing page: advance to the next page, stop
paging this category, or emit detail fetches for the matching entries and
advance. -/
inductive StepResult where
  | advance (nextIndex : Nat)
  | stop
  | collect (found : List Collected) (nextIndex : Nat)
deriving DecidableEq

namespace SsrnSpider

/-- `SsrnSpider.parse`: handle one listing page for `category` at offset
`index`, against target date `date`. Mirrors the min/max comparisons of
the source, including the unguarded `min(approved_dates)` on a page with
no parseable dates. -/
def parse (date : Nat) (category : String) (index : Nat) (papers : List Entry) :
    Except SpiderErr StepResult :=
  let approved_dates := papers.filterMap (fun p => p.approved)
  match approved_dates with
  | [] => .error .emptyDates
  | d :: ds =>
    if date < ds.foldl min d then .ok (.advance (index + 50))
    else if ds.foldl max d < date then .ok .stop
    else
      .ok (.collect
        ((papers.filter (fun p => p.approved = some date)).map
          (fun p => { entry := p, category := [category], detail := none }))
        (index + 50))

/-- `SsrnSpider.parse_detail`: merge the fetched detail structure into the
pending record. -/
def parse_detail (c : Collected) (detail : Nat) : Collected :=
  { c with detail := some detail }

end SsrnSpider

/-! ### Association list lemmas -/

theorem assocFind_eq_none {acc : List (String × Paper)} {i : String} :
    assocFind acc i = none ↔ i ∉ acc.map Prod.fst := by
  induction acc with
  | nil => simp [assocFind]
  | cons kv rest ih =>
    simp only [assocFind, List.map_cons, List.mem_cons]
    split <;> rename_i h
    · simp [h]
    · constructor
      · intro hl hmem
        rcases hmem with h1 | h2
        · exact h h1.symm
        · exact (ih.mp hl) h2
      · intro hr
        exact ih.mpr (fun h2 => hr (Or.inr h2))

theorem assocFind_mem_of_some {acc : List (String × Paper)} {i : String} {p : Paper}
    (h : assocFind acc i = some p) : i ∈ acc.map Prod.fst := by
  by_contra hmem
  rw [assocFind_eq_none.mpr hmem] at h
  exact Option.noConfusion h

theorem assocFind_append {acc : List (String × Paper)} {i k : String} {p : Paper}
    (h : assocFind acc i = none) :
    assocFind (acc ++ [(i, p)]) k = if i = k then some p else assocFind acc k := by
  induction acc with
  | nil => simp [assocFind]
  | cons kv rest ih =>
    simp only [assocFind] at h ⊢
    split at h <;> rename_i hk
    · exact Option.noConfusion h
    · by_cases hk2 : kv.1 = k
      · have hik : ¬ i = k := fun hik => hk (hk2.trans hik.symm)
        simp [hk2, hik]
      · simp only [if_neg hk2]
        exact ih h

theorem assocFind_update_self {acc : List (String × Paper)} {i : String} {p base : Paper}
    (h : assocFind acc i = some base) :
    assocFind (assocUpdate acc i p) i = some p := by
  induction acc with
  | nil => simp [assocFind] at h
  | cons kv rest ih =>
    simp only [assocFind, assocUpdate] at h ⊢
    split at h <;> rename_i hk
    · simp [assocFind, hk]
    · simp only [if_neg hk, assocFind, if_neg hk]
      exact ih h

theorem assocFind_update_ne {acc : List (String × Paper)} {i k : String} {p : Paper}
    (h : ¬ i = k) :
    assocFind (assocUpdate acc i p) k = assocFind acc k := by
  induction acc with
  | nil => simp [assocFind, assocUpdate]
  | cons kv rest ih =>
    simp only [assocFind, assocUpdate]
    by_cases hk : kv.1 = i
    · have : ¬ kv.1 = k := fun hkk => h (hk ▸ hkk)
      simp [hk, this, assocFind, h]
    · simp only [if_neg hk, assocFind]
      by_cases hk2 : kv.1 = k
      · simp [hk2]
      · simp only [if_neg hk2]
        exact ih

theorem assocUpdate_map_fst {acc : List (String × Paper)} {i : String} {p : Paper} :
    (assocUpdate acc i p).map Prod.fst = acc.map Prod.fst := by
  induction acc with
  | nil => rfl
  | cons kv rest ih =>
    simp only [assocUpdate]
    split
    · simp
    · simp [ih]

/-! ### setList lemmas -/

theorem mem_setList {l : List String} {x : String} : x ∈ setList l ↔ x ∈ l := by
  induction l with
  | nil => simp [setList]
  | cons a t ih =>
    simp only [setList, List.mem_cons, List.mem_filter, decide_eq_true_eq, ih]
    by_cases hxa : x = a <;> simp [hxa]

theorem setList_nodup (l : List String) : (setList l).Nodup := by
  induction l with
  | nil => simp [setList]
  | cons a t ih =>
    simp only [setList, List.nodup_cons]
    refine ⟨?_, ih.filter _⟩
    intro hmem
    have := (List.mem_filter.mp hmem).2
    simp at this

theorem setList_eq_self {l : List String} (h : l.Nodup) : setList l = l := by
  induction l with
  | nil => rfl
  | cons a t ih =>
    simp only [setList]
    rw [ih (List.Nodup.of_cons h)]
    have ha : a ∉ t := (List.nodup_cons.mp h).1
    rw [List.filter_eq_self.mpr]
    intro x hx
    simp only [decide_eq_true_eq]
    exact fun hxa => ha (hxa ▸ hx)

theorem setList_toFinset (l : List String) : (setList l).toFinset = l.toFinset := by
  apply Finset.ext
  intro x
  simp [mem_setList]

theorem setList_idem (l : List String) : setList (setList l) = setList l :=
  setList_eq_self (setList_nodup l)

/-! ### foldl min / max lemmas for the spider page handler -/

theorem foldl_min_le_init (ds : List Nat) (d : Nat) : ds.foldl min d ≤ d := by
  induction ds generalizing d with
  | nil => exact le_refl d
  | cons b t ih =>
    simp only [List.foldl_cons]
    exact le_trans (ih (min d b)) (Nat.min_le_left _ _)

theorem foldl_min_le {ds : List Nat} {d x : Nat} (h : x = d ∨ x ∈ ds) :
    ds.foldl min d ≤ x := by
  induction ds generalizing d with
  | nil =>
    simp only [List.foldl_nil]
    rcases h with h | h
    · omega
    · simp at h
  | cons b t ih =>
    simp only [List.foldl_cons]
    rcases h with h | h
    · subst h
      exact le_trans (foldl_min_le_init t (min x b)) (Nat.min_le_left _ _)
    · rcases List.mem_cons.mp h with h | h
      · subst h
        exact le_trans (foldl_min_le_init t (min d x)) (Nat.min_le_right _ _)
      · exact ih (Or.inr h)

theorem foldl_min_mem (ds : List Nat) (d : Nat) : ds.foldl min d = d ∨ ds.foldl min d ∈ ds := by
  induction ds generalizing d with
  | nil => simp
  | cons b t ih =>
    simp only [List.foldl_cons, List.mem_cons]
    rcases ih (min d b) with h | h
    · rcases min_choice d b with hm | hm
      · left; exact h.trans hm
      · right; left; exact h.trans hm
    · right; right; exact h

theorem le_foldl_max_init (ds : List Nat) (d : Nat) : d ≤ ds.foldl max d := by
  induction ds generalizing d with
  | nil => exact le_refl d
  | cons b t ih =>
    simp only [List.foldl_cons]
    exact le_trans (Nat.le_max_left _ _) (ih (max d b))

theorem le_foldl_max {ds : List Nat} {d x : Nat} (h : x = d ∨ x ∈ ds) :
    x ≤ ds.foldl max d := by
  induction ds generalizing d with
  | nil =>
    simp only [List.foldl_nil]
    rcases h with h | h
    · omega
    · simp at h
  | cons b t ih =>
    simp only [List.foldl_cons]
    rcases h with h | h
    · subst h
      exact le_trans (Nat.le_max_left _ _) (le_foldl_max_init t (max x b))
    · rcases List.mem_cons.mp h with h | h
      · subst h
        exact le_trans (Nat.le_max_right _ _) (le_foldl_max_init t (max d x))
      · exact ih (Or.inr h)

theorem foldl_max_mem (ds : List Nat) (d : Nat) : ds.foldl max d = d ∨ ds.foldl max d ∈ ds := by
  induction ds generalizing d with
  | nil => simp
  | cons b t ih =>
    simp only [List.foldl_cons, List.mem_cons]
    rcases ih (max d b) with h | h
    · rcases max_choice d b with hm | hm
      · left; exact h.trans hm
      · right; left; exact h.trans hm
    · right; right; exact h

/-! ### File-system lemmas -/

theorem setFile_files_ne {fs : FS} {d x : Int} {st : FileState} (h : ¬ x = d) :
    (setFile fs d st).files x = fs.files x := by
  simp [setFile, h]

theorem historyIds_setFile {fs : FS} {d : Int} {st : FileState} :
    historyIds (setFile fs d st) d = historyIds fs d := by
  unfold historyIds
  have hmap : (List.range 7).map
        (fun (i : Nat) => (load_papers_data ((setFile fs d st).files (d - ((i : Int) + 1)))).2)
      = (List.range 7).map
        (fun (i : Nat) => (load_papers_data (fs.files (d - ((i : Int) + 1)))).2) := by
    apply List.map_congr_left
    intro i _
    have hne : ¬ (d - ((i : Int) + 1)) = d := by omega
    rw [setFile_files_ne hne]
  rw [hmap]

/-! ### The workflow gate (claim C3) -/

/-- The exit-code table of spec section 4.4 as a pure function of the
(merge status, dedup status) pair: merge no_data exits 1, merge error or
unrecognized exits 2; after merge_success, dedup has_new_content exits 0,
no_new_content and no_data exit 1, error or unrecognized exits 2. -/
def exitTable (ms ds : Status) : Nat :=
  match ms with
  | .merge_success =>
    match ds with
    | .has_new_content => 0
    | .no_new_content => 1
    | .no_data => 1
    | _ => 2
  | .no_data => 1
  | _ => 2

/-- C3: the workflow gate's exit code is the pure function `exitTable` of
the (merge status, dedup status) pair; when merge reports no_data the gate
exits 1 returning the post-merge state untouched (dedup is not invoked);
and every execution path exits with exactly one of 0, 1, 2. -/
theorem gate_exit_code (fs : FS) (d : Int) :
    (checkStatsMain fs d).1 =
      exitTable (perform_merge fs d).1 (perform_deduplication (perform_merge fs d).2 d).1 ∧
    ((perform_merge fs d).1 = .no_data → checkStatsMain fs d = (1, (perform_merge fs d).2)) ∧
    ((checkStatsMain fs d).1 = 0 ∨ (checkStatsMain fs d).1 = 1 ∨ (checkStatsMain fs d).1 = 2) := by
  cases hm : (perform_merge fs d).1 <;>
    cases hd : (perform_deduplication (perform_merge fs d).2 d).1 <;>
      simp [checkStatsMain, exitTable, hm, hd]

/-- A file system with no store files at all. -/
def fsGate : FS :=
  { files := fun _ => .absent, writeOk := fun _ => true, removeOk := fun _ => true }

/-- Witness for C3 at a concrete state: with the store file missing, merge
reports no_data and the gate exits 1 without invoking dedup. -/
theorem gate_exit_code_witness :
    (perform_merge fsGate 0).1 = .no_data ∧
    checkStatsMain fsGate 0 = (1, (perform_merge fsGate 0).2) ∧
    (checkStatsMain fsGate 0).1 = 1 :=
  ⟨by decide, (gate_exit_code fsGate 0).2.1 (by decide), by decide⟩

/-! ### The spider page handler (claims C5 and C9) -/

/-- C9: on a listing page with zero parseable approved dates the source
calls min() on an empty sequence and raises ValueError instead of the
specified stop-paging behaviour; shown both for an empty page and for a
page whose only entry lacks a parseable approved date. -/
theorem parse_empty_page_raises :
    SsrnSpider.parse 5 "IS" 0 [] = .error .emptyDates ∧
    SsrnSpider.parse 5 "IS" 100 [{ id := "x", approved := none, payload := 0 }] =
      .error .emptyDates :=
  ⟨rfl, rfl⟩

/-- C5: on a page with at least one parseable approved date, the handler
advances to offset+50 when the earliest approved date is later than the
target date; stops paging when the latest approved date is earlier than
the target date; and otherwise emits one combined record (category set to
the single-element list of the current category, detail pending) for
exactly the entries whose approved date equals the target date, still
advancing to offset+50; parse_detail then merges the fetched detail in. -/
theorem parse_page_traversal (date : Nat) (category : String) (index : Nat)
    (papers : List Entry)
    (h : papers.filterMap (fun p => p.approved) ≠ []) :
    ((∀ x ∈ papers.filterMap (fun p => p.approved), date < x) →
      SsrnSpider.parse date category index papers = .ok (.advance (index + 50))) ∧
    ((∀ x ∈ papers.filterMap (fun p => p.approved), x < date) →
      SsrnSpider.parse date category index papers = .ok .stop) ∧
    ((∃ x ∈ papers.filterMap (fun p => p.approved), ¬ date < x) →
     (∃ x ∈ papers.filterMap (fun p => p.approved), ¬ x < date) →
      SsrnSpider.parse date category index papers =
        .ok (.collect
          ((papers.filter (fun p => p.approved = some date)).map
            (fun p => { entry := p, category := [category], detail := none }))
          (index + 50))) ∧
    (∀ c det, SsrnSpider.parse_detail c det = { c with detail := some det }) := by
  rcases hd : papers.filterMap (fun p => p.approved) with _ | ⟨d, ds⟩
  · exact absurd hd h
  refine ⟨?_, ?_, ?_, fun c det => rfl⟩
  · intro hall
    have hmin : date < ds.foldl min d := by
      rcases foldl_min_mem ds d with hm | hm
      · rw [hm]; exact hall d (by rw [hd]; exact List.mem_cons_self _ _)
      · exact hall _ (by rw [hd]; exact List.mem_cons_of_mem _ hm)
    simp only [SsrnSpider.parse]
    rw [hd]
    simp [hmin]
  · intro hall
    have h1 : ¬ date < ds.foldl min d := by
      have hlt : ds.foldl min d < date := by
        rcases foldl_min_mem ds d with hm | hm
        · rw [hm]; exact hall d (by rw [hd]; exact List.mem_cons_self _ _)
        · exact hall _ (by rw [hd]; exact List.mem_cons_of_mem _ hm)
      omega
    have h2 : ds.foldl max d < date := by
      rcases foldl_max_mem ds d with hm | hm
      · rw [hm]; exact hall d (by rw [hd]; exact List.mem_cons_self _ _)
      · exact hall _ (by rw [hd]; exact List.mem_cons_of_mem _ hm)
    simp only [SsrnSpider.parse]
    rw [hd]
    simp [h1, h2]
  · intro hex1 hex2
    obtain ⟨x, hx, hxle⟩ := hex1
    obtain ⟨y, hy, hyge⟩ := hex2
    rw [hd] at hx hy
    have h1 : ¬ date < ds.foldl min d := by
      have hle : ds.foldl min d ≤ x := by
        rcases List.mem_cons.mp hx with hh | hh
        · exact foldl_min_le (Or.inl hh)
        · exact foldl_min_le (Or.inr hh)
      omega
    have h2 : ¬ ds.foldl max d < date := by
      have hge : y ≤ ds.foldl max d := by
        rcases List.mem_cons.mp hy with hh | hh
        · exact le_foldl_max (Or.inl hh)
        · exact le_foldl_max (Or.inr hh)
      omega
    simp only [SsrnSpider.parse]
    rw [hd]
    simp [h1, h2]

/-- A concrete straddling page: one entry approved on the target date, one
a day later. -/
def pageW : List Entry :=
  [{ id := "w1", approved := some 5, payload := 0 },
   { id := "w2", approved := some 6, payload := 1 }]

/-- Witness for C5 at a concrete page straddling target date 5: exactly
the entry approved on day 5 is emitted, and paging advances to 50. -/
theorem parse_page_traversal_witness :
    SsrnSpider.parse 5 "IS" 0 pageW =
      .ok (.collect
        ((pageW.filter (fun p => p.approved = some 5)).map
          (fun p => { entry := p, category := ["IS"], detail := none }))
        50) :=
  (parse_page_traversal 5 "IS" 0 pageW (by decide)).2.2.1
    ⟨5, by decide, by decide⟩ ⟨6, by decide, by decide⟩

/-! ### Status characterizations (claims C6 and C7) -/

theorem load_ids_empty {st : FileState} (h : (load_papers_data st).1 = []) :
    (load_papers_data st).2 = ∅ := by
  cases st with
  | absent => rfl
  | badRead => rfl
  | good papers =>
    simp only [load_papers_data] at h ⊢
    subst h
    rfl

theorem load_good (l : List Paper) :
    load_papers_data (.good l) = (l, (l.map getId).toFinset) := rfl

/-- Concrete records used by the witnesses and counterexamples. -/
def pA : Paper := { id := some "A", category := some ["IS"], payload := 0 }

/-- A second record with the same identifier as `pA` under another category. -/
def pA2 : Paper := { id := some "A", category := some ["MKT"], payload := 1 }

/-- A record with a fresh identifier. -/
def pB : Paper := { id := some "B", category := some ["MKT"], payload := 2 }

/-- A record whose JSON object lacks the id key. -/
def pNoId : Paper := { id := none, category := some ["CS"], payload := 3 }

/-- C6 (amended): perform_merge returns merge_success exactly when the
loaded record list is non-empty, the in-memory merge raises no error and
persisting succeeds; no_data exactly when the file is absent or the loader
yields no records (including when reading fails, which the loader absorbs
by returning an empty list); and error exactly when, on a non-empty load,
the in-memory merge raises (a record lacking id, or a first-occurrence
record lacking category) or persisting the merged result fails. -/
theorem perform_merge_status (fs : FS) (d : Int) :
    ((perform_merge fs d).1 = .merge_success ↔
      fs.files d ≠ .absent ∧ (load_papers_data (fs.files d)).1 ≠ [] ∧
      (∃ res, mergeRecords (load_papers_data (fs.files d)).1 = .ok res) ∧
      fs.writeOk d = true) ∧
    ((perform_merge fs d).1 = .no_data ↔
      fs.files d = .absent ∨ (load_papers_data (fs.files d)).1 = []) ∧
    ((perform_merge fs d).1 = .error ↔
      fs.files d ≠ .absent ∧ (load_papers_data (fs.files d)).1 ≠ [] ∧
      (mergeRecords (load_papers_data (fs.files d)).1 = .error () ∨
       fs.writeOk d = false)) := by
  by_cases h1 : fs.files d = .absent
  · simp [perform_merge, h1]
  · by_cases h2 : (load_papers_data (fs.files d)).1 = []
    · simp [perform_merge, h1, h2]
    · cases hm : mergeRecords (load_papers_data (fs.files d)).1 with
      | error e =>
        cases e
        by_cases h3 : fs.writeOk d <;>
          simp [perform_merge, save_papers_data, h1, h2, hm, h3]
      | ok res =>
        by_cases h3 : fs.writeOk d <;>
          simp [perform_merge, save_papers_data, h1, h2, hm, h3]

/-- A store whose read raises (e.g. a malformed JSON line). -/
def fsBadRead : FS :=
  { files := fun x => if x = 0 then .badRead else .absent,
    writeOk := fun _ => true, removeOk := fun _ => true }

/-- Counterexample to C6 as stated: when reading the store fails, the
loader absorbs the exception and perform_merge returns no_data rather
than the claimed error. -/
theorem perform_merge_status_cx :
    fsBadRead.files 0 = .badRead ∧
    (perform_merge fsBadRead 0).1 = .no_data ∧
    (perform_merge fsBadRead 0).1 ≠ .error := by decide

/-- A store holding two records with the same id under two categories. -/
def fsMergeW : FS :=
  { files := fun x => if x = 0 then .good [pA, pA2] else .absent,
    writeOk := fun _ => true, removeOk := fun _ => true }

/-- Witness for C6 (amended) at a concrete state: a non-empty readable
store with a successful merge and persist yields merge_success. -/
theorem perform_merge_status_witness :
    (perform_merge fsMergeW 0).1 = .merge_success :=
  (perform_merge_status fsMergeW 0).1.mpr
    ⟨by decide, by decide,
     ⟨[{ id := some "A", category := some ["IS", "MKT"], payload := 0 }], rfl⟩,
     by decide⟩

/-- C7 (amended): perform_deduplication returns error exactly when the
rewrite of today's store fails; read exceptions are absorbed by the loader
(a failing read of today's store yields no_data, and failing history reads
contribute empty id sets); and a failed deletion of today's store is
caught, still yielding no_new_content with the store untouched. -/
theorem perform_dedup_error (fs : FS) (d : Int) :
    ((perform_deduplication fs d).1 = .error ↔
      fs.files d ≠ .absent ∧
      (load_papers_data (fs.files d)).1 ≠ [] ∧
      (load_papers_data (fs.files d)).2 ∩ historyIds fs d ≠ ∅ ∧
      (load_papers_data (fs.files d)).1.filter
        (fun p => getId p ∉ (load_papers_data (fs.files d)).2 ∩ historyIds fs d) ≠ [] ∧
      fs.writeOk d = false) ∧
    (fs.files d = .badRead → (perform_deduplication fs d).1 = .no_data) ∧
    ((load_papers_data (fs.files d)).1 ≠ [] →
      (load_papers_data (fs.files d)).2 ∩ historyIds fs d ≠ ∅ →
      (load_papers_data (fs.files d)).1.filter
        (fun p => getId p ∉ (load_papers_data (fs.files d)).2 ∩ historyIds fs d) = [] →
      fs.removeOk d = false →
      perform_deduplication fs d = (.no_new_content, fs)) := by
  by_cases h1 : fs.files d = .absent
  · have hv : perform_deduplication fs d = (.no_data, fs) := by
      simp only [perform_deduplication]
      rw [if_pos h1]
    refine ⟨by simp [hv, h1], fun hbr => by simp [hv], fun hnp => ?_⟩
    rw [h1] at hnp
    simp [load_papers_data] at hnp
  · by_cases h2 : (load_papers_data (fs.files d)).1 = []
    · have hv : perform_deduplication fs d = (.no_data, fs) := by
        simp only [perform_deduplication]
        rw [if_neg h1, if_pos h2]
      exact ⟨by simp [hv, h2], fun _ => by simp [hv], fun hnp => absurd h2 hnp⟩
    · have hbr2 : ¬ fs.files d = .badRead := by
        intro hbr
        rw [hbr] at h2
        exact h2 rfl
      by_cases h3 : (load_papers_data (fs.files d)).2 ∩ historyIds fs d ≠ ∅
      · by_cases h4 : (load_papers_data (fs.files d)).1.filter
            (fun p => getId p ∉ (load_papers_data (fs.files d)).2 ∩ historyIds fs d) ≠ []
        · by_cases h5 : fs.writeOk d = true
          · have hv : perform_deduplication fs d =
                (.has_new_content, setFile fs d (.good
                  ((load_papers_data (fs.files d)).1.filter
                    (fun p => getId p ∉ (load_papers_data (fs.files d)).2 ∩ historyIds fs d)))) := by
              simp only [perform_deduplication, save_papers_data]
              rw [if_neg h1, if_neg h2, if_pos h3, if_pos h4, if_pos h5]
              rfl
            exact ⟨iff_of_false (by simp [hv])
                (fun hh => Bool.noConfusion (h5.symm.trans hh.2.2.2.2)),
              fun hbr => absurd hbr hbr2, fun _ _ hf _ => absurd hf h4⟩
          · have h5f : fs.writeOk d = false := by
              cases hw : fs.writeOk d with
              | false => rfl
              | true => exact absurd hw h5
            have hv : perform_deduplication fs d = (.error, fs) := by
              simp only [perform_deduplication, save_papers_data]
              rw [if_neg h1, if_neg h2, if_pos h3, if_pos h4, if_neg h5]
              rfl
            refine ⟨?_, fun hbr => absurd hbr hbr2, fun _ _ hf _ => absurd hf h4⟩
            rw [hv]
            exact iff_of_true rfl ⟨h1, h2, h3, h4, h5f⟩
        · have h4e : (load_papers_data (fs.files d)).1.filter
              (fun p => getId p ∉ (load_papers_data (fs.files d)).2 ∩ historyIds fs d) = [] :=
            not_not.mp h4
          by_cases h5 : fs.removeOk d = true
          · have hv : perform_deduplication fs d = (.no_new_content, setFile fs d .absent) := by
              simp only [perform_deduplication, removeFile]
              rw [if_neg h1, if_neg h2, if_pos h3, if_neg h4, if_pos h5]
            refine ⟨iff_of_false (by simp [hv]) (fun hh => hh.2.2.2.1 h4e),
              fun hbr => absurd hbr hbr2, fun _ _ _ hrm => ?_⟩
            rw [h5] at hrm
            exact Bool.noConfusion hrm
          · have hv : perform_deduplication fs d = (.no_new_content, fs) := by
              simp only [perform_deduplication, removeFile]
              rw [if_neg h1, if_neg h2, if_pos h3, if_neg h4, if_neg h5]
            exact ⟨iff_of_false (by simp [hv]) (fun hh => hh.2.2.2.1 h4e),
              fun hbr => absurd hbr hbr2, fun _ _ _ _ => hv⟩
      · have h3e : (load_papers_data (fs.files d)).2 ∩ historyIds fs d = ∅ := not_not.mp h3
        have hv : perform_deduplication fs d = (.has_new_content, fs) := by
          simp only [perform_deduplication]
          rw [if_neg h1, if_neg h2, if_neg h3]
        exact ⟨iff_of_false (by simp [hv]) (fun hh => hh.2.2.1 h3e),
          fun hbr => absurd hbr hbr2, fun _ hdup _ _ => absurd hdup h3⟩

/-- A file system whose history store for day -1 fails to read. -/
def fsHist : FS :=
  { files := fun x => if x = 0 then .good [pA] else if x = -1 then .badRead else .absent,
    writeOk := fun _ => true, removeOk := fun _ => true }

/-- Counterexample to C7 as stated: a read exception while loading a
history store is absorbed (contributing an empty id set), and
perform_deduplication reports has_new_content rather than error. -/
theorem perform_dedup_error_cx :
    fsHist.files (-1) = .badRead ∧
    (perform_deduplication fsHist 0).1 = .has_new_content ∧
    (perform_deduplication fsHist 0).1 ≠ .error := by decide

/-- A file system where rewriting today's store fails. -/
def fsWFail : FS :=
  { files := fun x => if x = 0 then .good [pA, pB] else if x = -1 then .good [pA] else .absent,
    writeOk := fun _ => false, removeOk := fun _ => true }

/-- Witness for C7 (amended) at a concrete state: when the rewrite of
today's store fails, perform_deduplication reports error. -/
theorem perform_dedup_error_witness :
    (perform_deduplication fsWFail 0).1 = .error :=
  (perform_dedup_error fsWFail 0).1.mpr (by decide)

/-! ### Dedup disjointness (claim C1) -/

/-- C1 (amended): provided deleting today's store would succeed, after
perform_deduplication completes with a non-error status the id set loaded
from today's store is disjoint from the union of the id sets of the 7
preceding days' stores. (When the deletion fails, the exception is
swallowed: the status is still no_new_content but the store keeps its
all-duplicate records.) -/
theorem dedup_disjoint (fs : FS) (d : Int)
    (hrm : fs.removeOk d = true)
    (hne : (perform_deduplication fs d).1 ≠ .error) :
    (load_papers_data ((perform_deduplication fs d).2.files d)).2 ∩
      historyIds (perform_deduplication fs d).2 d = ∅ := by
  by_cases h1 : fs.files d = .absent
  · have hv : perform_deduplication fs d = (.no_data, fs) := by
      simp only [perform_deduplication]
      rw [if_pos h1]
    rw [hv]
    show (load_papers_data (fs.files d)).2 ∩ historyIds fs d = ∅
    rw [h1]
    simp [load_papers_data]
  · by_cases h2 : (load_papers_data (fs.files d)).1 = []
    · have hv : perform_deduplication fs d = (.no_data, fs) := by
        simp only [perform_deduplication]
        rw [if_neg h1, if_pos h2]
      rw [hv]
      show (load_papers_data (fs.files d)).2 ∩ historyIds fs d = ∅
      rw [load_ids_empty h2]
      simp
    · by_cases h3 : (load_papers_data (fs.files d)).2 ∩ historyIds fs d ≠ ∅
      · by_cases h4 : (load_papers_data (fs.files d)).1.filter
            (fun p => getId p ∉ (load_papers_data (fs.files d)).2 ∩ historyIds fs d) ≠ []
        · have h5 : fs.writeOk d = true := by
            by_contra h5
            apply hne
            have hv : perform_deduplication fs d = (.error, fs) := by
              simp only [perform_deduplication, save_papers_data]
              rw [if_neg h1, if_neg h2, if_pos h3, if_pos h4, if_neg h5]
              rfl
            rw [hv]
          have hv : perform_deduplication fs d =
              (.has_new_content, setFile fs d (.good
                ((load_papers_data (fs.files d)).1.filter
                  (fun p => getId p ∉ (load_papers_data (fs.files d)).2 ∩ historyIds fs d)))) := by
            simp only [perform_deduplication, save_papers_data]
            rw [if_neg h1, if_neg h2, if_pos h3, if_pos h4, if_pos h5]
            rfl
          rw [hv]
          show (load_papers_data ((setFile fs d (.good
              ((load_papers_data (fs.files d)).1.filter
                (fun p => getId p ∉ (load_papers_data (fs.files d)).2 ∩ historyIds fs d)))).files d)).2 ∩
            historyIds (setFile fs d (.good
              ((load_papers_data (fs.files d)).1.filter
                (fun p => getId p ∉ (load_papers_data (fs.files d)).2 ∩ historyIds fs d)))) d = ∅
          rw [historyIds_setFile]
          have hfd : (setFile fs d (.good
              ((load_papers_data (fs.files d)).1.filter
                (fun p => getId p ∉ (load_papers_data (fs.files d)).2 ∩ historyIds fs d)))).files d
              = .good ((load_papers_data (fs.files d)).1.filter
                (fun p => getId p ∉ (load_papers_data (fs.files d)).2 ∩ historyIds fs d)) := by
            simp [setFile]
          rw [hfd, load_good]
          rw [Finset.eq_empty_iff_forall_not_mem]
          intro x hx
          rcases Finset.mem_inter.mp hx with ⟨hx1, hx2⟩
          obtain ⟨p, hp, hpx⟩ := List.mem_map.mp (List.mem_toFinset.mp hx1)
          have hpf := List.mem_filter.mp hp
          have hnotdup : getId p ∉ (load_papers_data (fs.files d)).2 ∩ historyIds fs d :=
            of_decide_eq_true hpf.2
          apply hnotdup
          apply Finset.mem_inter.mpr
          constructor
          · rcases hst : fs.files d with _ | papers | _
            · exact absurd hst h1
            · rw [load_good]
              have hp1 : p ∈ papers := by
                have hmem := hpf.1
                rw [hst, load_good] at hmem
                exact hmem
              exact List.mem_toFinset.mpr (List.mem_map.mpr ⟨p, hp1, rfl⟩)
            · rw [hst] at h2
              exact absurd rfl h2
          · rw [hpx]
            exact hx2
        · have hv : perform_deduplication fs d = (.no_new_content, setFile fs d .absent) := by
            simp only [perform_deduplication, removeFile]
            rw [if_neg h1, if_neg h2, if_pos h3, if_neg h4, if_pos hrm]
          rw [hv]
          show (load_papers_data ((setFile fs d .absent).files d)).2 ∩
            historyIds (setFile fs d .absent) d = ∅
          rw [historyIds_setFile]
          have hfd : (setFile fs d .absent).files d = .absent := by simp [setFile]
          rw [hfd]
          simp [load_papers_data]
      · have hv : perform_deduplication fs d = (.has_new_content, fs) := by
          simp only [perform_deduplication]
          rw [if_neg h1, if_neg h2, if_neg h3]
        rw [hv]
        show (load_papers_data (fs.files d)).2 ∩ historyIds fs d = ∅
        exact not_not.mp h3

/-- A file system where today's only record is a historical duplicate and
the deletion of today's store fails. -/
def fsRmFail : FS :=
  { files := fun x => if x = 0 then .good [pA] else if x = -1 then .good [pA2] else .absent,
    writeOk := fun _ => true, removeOk := fun _ => false }

/-- Counterexample to C1 as stated: when deleting today's store fails, the
exception is swallowed, the status is the non-error no_new_content, yet
today's surviving id set still intersects the history window. -/
theorem dedup_disjoint_cx :
    (perform_deduplication fsRmFail 0).1 = .no_new_content ∧
    (perform_deduplication fsRmFail 0).1 ≠ .error ∧
    ¬ ((load_papers_data ((perform_deduplication fsRmFail 0).2.files 0)).2 ∩
        historyIds (perform_deduplication fsRmFail 0).2 0 = ∅) := by decide

/-- A file system where dedup removes one duplicate and keeps one fresh
record, with deletion permitted. -/
def fsDedupW : FS :=
  { files := fun x => if x = 0 then .good [pA, pB] else if x = -1 then .good [pA2] else .absent,
    writeOk := fun _ => true, removeOk := fun _ => true }

/-- Witness for C1 (amended) at a concrete state. -/
theorem dedup_disjoint_witness :
    (load_papers_data ((perform_deduplication fsDedupW 0).2.files 0)).2 ∩
      historyIds (perform_deduplication fsDedupW 0).2 0 = ∅ :=
  dedup_disjoint fsDedupW 0 rfl (by decide)

/-! ### Dedup file-state effects (claim C4) -/

/-- C4 (amended): after perform_deduplication on a readable non-empty
store completes with a non-error status, and with deletion permitted to
succeed: if no records survive removal the store file no longer exists;
if some records survive the file holds exactly the surviving records; and
if the duplicate set was empty the whole state is unchanged. -/
theorem dedup_file_state (fs : FS) (d : Int) (papers : List Paper)
    (hf : fs.files d = .good papers) (hnp : papers ≠ [])
    (hrm : fs.removeOk d = true)
    (hse : (perform_deduplication fs d).1 ≠ .error) :
    (papers.filter (fun p => getId p ∉ (load_papers_data (fs.files d)).2 ∩ historyIds fs d) = [] →
      (perform_deduplication fs d).2.files d = .absent) ∧
    (papers.filter (fun p => getId p ∉ (load_papers_data (fs.files d)).2 ∩ historyIds fs d) ≠ [] →
      (perform_deduplication fs d).2.files d =
        .good (papers.filter
          (fun p => getId p ∉ (load_papers_data (fs.files d)).2 ∩ historyIds fs d))) ∧
    ((load_papers_data (fs.files d)).2 ∩ historyIds fs d = ∅ →
      (perform_deduplication fs d).2 = fs) := by
  have h1 : ¬ fs.files d = .absent := by rw [hf]; exact fun hh => FileState.noConfusion hh
  have hl1 : (load_papers_data (fs.files d)).1 = papers := by rw [hf, load_good]
  have h2 : ¬ (load_papers_data (fs.files d)).1 = [] := by rw [hl1]; exact hnp
  by_cases h3 : (load_papers_data (fs.files d)).2 ∩ historyIds fs d ≠ ∅
  · by_cases h4 : (load_papers_data (fs.files d)).1.filter
        (fun p => getId p ∉ (load_papers_data (fs.files d)).2 ∩ historyIds fs d) ≠ []
    · have h5 : fs.writeOk d = true := by
        by_contra h5
        apply hse
        have hv : perform_deduplication fs d = (.error, fs) := by
          simp only [perform_deduplication, save_papers_data]
          rw [if_neg h1, if_neg h2, if_pos h3, if_pos h4, if_neg h5]
          rfl
        rw [hv]
      have hv : perform_deduplication fs d =
          (.has_new_content, setFile fs d (.good
            ((load_papers_data (fs.files d)).1.filter
              (fun p => getId p ∉ (load_papers_data (fs.files d)).2 ∩ historyIds fs d)))) := by
        simp only [perform_deduplication, save_papers_data]
        rw [if_neg h1, if_neg h2, if_pos h3, if_pos h4, if_pos h5]
        rfl
      rw [hl1] at h4 hv
      refine ⟨fun hfe => absurd hfe h4, fun _ => ?_, fun hdup => absurd hdup h3⟩
      rw [hv]
      simp [setFile]
    · have h4e : (load_papers_data (fs.files d)).1.filter
          (fun p => getId p ∉ (load_papers_data (fs.files d)).2 ∩ historyIds fs d) = [] :=
        not_not.mp h4
      have hv : perform_deduplication fs d = (.no_new_content, setFile fs d .absent) := by
        simp only [perform_deduplication, removeFile]
        rw [if_neg h1, if_neg h2, if_pos h3, if_neg h4, if_pos hrm]
      rw [hl1] at h4e
      refine ⟨fun _ => ?_, fun hfe => absurd h4e hfe, fun hdup => absurd hdup h3⟩
      rw [hv]
      simp [setFile]
  · have h3e : (load_papers_data (fs.files d)).2 ∩ historyIds fs d = ∅ := not_not.mp h3
    have hfe : papers.filter
        (fun p => getId p ∉ (load_papers_data (fs.files d)).2 ∩ historyIds fs d) = papers := by
      apply List.filter_eq_self.mpr
      intro x _
      simp [h3e]
    have hv : perform_deduplication fs d = (.has_new_content, fs) := by
      simp only [perform_deduplication]
      rw [if_neg h1, if_neg h2, if_neg h3]
    refine ⟨fun hz => ?_, fun _ => ?_, fun _ => by rw [hv]⟩
    · rw [hfe] at hz
      exact absurd hz hnp
    · rw [hv, hfe, hf]

/-- Counterexample to C4 as stated: first, with a failed deletion the
store file still exists although no records survived; second, with a
failed rewrite the file exists but keeps the old records rather than
exactly the surviving ones. -/
theorem dedup_file_state_cx :
    ((perform_deduplication fsRmFail 0).1 ≠ .error ∧
     [pA].filter
       (fun p => getId p ∉ (load_papers_data (fsRmFail.files 0)).2 ∩ historyIds fsRmFail 0) = [] ∧
     (perform_deduplication fsRmFail 0).2.files 0 ≠ .absent) ∧
    ((perform_deduplication fsWFail 0).2.files 0 = .good [pA, pB] ∧
     (perform_deduplication fsWFail 0).2.files 0 ≠
       .good ([pA, pB].filter
         (fun p => getId p ∉ (load_papers_data (fsWFail.files 0)).2 ∩ historyIds fsWFail 0))) := by
  decide

/-- Witness for C4 (amended) at a concrete state: the surviving record set
is exactly what remains in the store. -/
theorem dedup_file_state_witness :
    (perform_deduplication fsDedupW 0).2.files 0 =
      .good ([pA, pB].filter
        (fun p => getId p ∉ (load_papers_data (fsDedupW.files 0)).2 ∩ historyIds fsDedupW 0)) :=
  (dedup_file_state fsDedupW 0 [pA, pB] (by decide) (by decide) (by decide) (by decide)).2.1
    (by decide)

/-! ### Merge characterization: specification-level definitions -/

/-- The first record in the store carrying identifier `k`. -/
def firstOcc (papers : List Paper) (k : String) : Option Paper :=
  papers.find? (fun p => p.id = some k)

/-- All categories contributed by the records with identifier `k`, in
input order. -/
def groupCats (papers : List Paper) (k : String) : List String :=
  ((papers.filter (fun p => p.id = some k)).map getCats).flatten

/-- The identifiers of the records in first-seen order, skipping those in
`seen` (and, recursively, earlier occurrences). -/
def newKeys (seen : List String) : List Paper → List String
  | [] => []
  | p :: rest =>
    if getId p ∈ seen then newKeys seen rest
    else getId p :: newKeys (seen ++ [getId p]) rest

/-- Accumulate the categories of later same-id records onto a base record;
`none` models the KeyError raised when the base lacks a category. -/
def accumInto (base : Paper) : List Paper → Option Paper
  | [] => some base
  | item :: rest =>
    match base.category with
    | none => none
    | some cs => accumInto { base with category := some (cs ++ getCats item) } rest

/-- The specification-level merged record for identifier `k`: the first
occurrence with its category replaced by the distinct values of the whole
group's categories. -/
def mergedPaper (papers : List Paper) (k : String) : Paper :=
  match firstOcc papers k with
  | some f => { f with category := some (setList (groupCats papers k)) }
  | none => { id := some k, category := some [], payload := 0 }

/-- The specification-level merge result: one record per identifier, in
first-seen order. -/
def canonicalMerge (papers : List Paper) : List Paper :=
  (newKeys [] papers).map (mergedPaper papers)

/-! ### Supporting lemmas for the merge characterization -/

theorem find?_eq_head?_filter {α : Type} (p : α → Bool) (l : List α) :
    l.find? p = (l.filter p).head? := by
  induction l with
  | nil => rfl
  | cons a t ih =>
    cases hpa : p a
    · rw [List.find?_cons_of_neg _ (by simp [hpa]), List.filter_cons_of_neg (by simp [hpa]), ih]
    · rw [List.find?_cons_of_pos _ (by simp [hpa]), List.filter_cons_of_pos (by simp [hpa]),
        List.head?_cons]

theorem newKeys_nodup_and (l : List Paper) :
    ∀ seen, (newKeys seen l).Nodup ∧ ∀ x ∈ newKeys seen l, x ∉ seen := by
  induction l with
  | nil => intro seen; simp [newKeys]
  | cons p rest ih =>
    intro seen
    simp only [newKeys]
    by_cases hmem : getId p ∈ seen
    · rw [if_pos hmem]; exact ih seen
    · rw [if_neg hmem]
      obtain ⟨hnd, hns⟩ := ih (seen ++ [getId p])
      refine ⟨List.nodup_cons.mpr ⟨fun hc => ?_, hnd⟩, fun x hx => ?_⟩
      · exact (hns _ hc) (List.mem_append.mpr (Or.inr (List.mem_singleton.mpr rfl)))
      · rcases List.mem_cons.mp hx with hh | hh
        · subst hh; exact hmem
        · exact fun hxs => (hns x hh) (List.mem_append.mpr (Or.inl hxs))

theorem newKeys_mem (l : List Paper) :
    ∀ seen x, x ∈ newKeys seen l → ∃ p ∈ l, getId p = x := by
  induction l with
  | nil => intro seen x hx; simp [newKeys] at hx
  | cons p rest ih =>
    intro seen x hx
    simp only [newKeys] at hx
    by_cases hmem : getId p ∈ seen
    · rw [if_pos hmem] at hx
      obtain ⟨q, hq, hqx⟩ := ih seen x hx
      exact ⟨q, List.mem_cons_of_mem _ hq, hqx⟩
    · rw [if_neg hmem] at hx
      rcases List.mem_cons.mp hx with hh | hh
      · exact ⟨p, List.mem_cons_self _ _, hh.symm⟩
      · obtain ⟨q, hq, hqx⟩ := ih _ x hh
        exact ⟨q, List.mem_cons_of_mem _ hq, hqx⟩

theorem newKeys_ne_nil {p : Paper} {rest : List Paper} :
    newKeys [] (p :: rest) ≠ [] := by
  simp [newKeys]

theorem getId_mergedPaper (papers : List Paper) (k : String) :
    getId (mergedPaper papers k) = k := by
  unfold mergedPaper
  rcases hf : firstOcc papers k with _ | f
  · rfl
  · have hf2 : papers.find? (fun p => decide (p.id = some k)) = some f := hf
    have hp := List.find?_some hf2
    have hid : f.id = some k := of_decide_eq_true hp
    simp [getId, hid]

theorem accumInto_some_cat (gs : List Paper) :
    ∀ base cs, base.category = some cs →
      accumInto base gs = some { base with category := some (cs ++ (gs.map getCats).flatten) } := by
  induction gs with
  | nil =>
    intro base cs hcat
    simp only [accumInto, List.map_nil, List.flatten_nil, List.append_nil]
    rcases base with ⟨bid, bcat, bpay⟩
    simp only at hcat
    rw [hcat]
  | cons g t ih =>
    intro base cs hcat
    simp only [accumInto, hcat]
    rw [ih _ (cs ++ getCats g) rfl]
    simp [List.append_assoc]

theorem assocFind_isSome_of_mem {acc : List (String × Paper)} {k : String}
    (h : k ∈ acc.map Prod.fst) : (assocFind acc k).isSome := by
  rcases hc : assocFind acc k with _ | v
  · exact absurd h (assocFind_eq_none.mp hc)
  · rfl

theorem assoc_eq_keys_map (acc : List (String × Paper)) :
    (acc.map Prod.fst).Nodup →
      acc = (acc.map Prod.fst).map
        (fun k => (k, (assocFind acc k).getD { id := none, category := none, payload := 0 })) := by
  induction acc with
  | nil => intro _; rfl
  | cons kv rest ih =>
    intro hnd
    rcases kv with ⟨k, v⟩
    rw [List.map_cons, List.map_cons]
    have hk : k ∉ rest.map Prod.fst := (List.nodup_cons.mp hnd).1
    have hrest : (rest.map Prod.fst).Nodup := (List.nodup_cons.mp hnd).2
    congr 1
    · simp [assocFind]
    · have hcg : ∀ k2 ∈ rest.map Prod.fst,
          (k2, (assocFind ((k, v) :: rest) k2).getD { id := none, category := none, payload := 0 })
            = (k2, (assocFind rest k2).getD { id := none, category := none, payload := 0 }) := by
        intro k2 hk2
        have hne : ¬ k = k2 := fun hh => hk (hh ▸ hk2)
        simp [assocFind, hne]
      rw [show (rest.map Prod.fst).map (fun k2 =>
            (k2, (assocFind ((k, v) :: rest) k2).getD { id := none, category := none, payload := 0 }))
          = (rest.map Prod.fst).map (fun k2 =>
            (k2, (assocFind rest k2).getD { id := none, category := none, payload := 0 }))
          from List.map_congr_left hcg]
      exact ih hrest

/-! ### mergeLoop invariants -/

theorem mergeLoop_ids_isSome (l : List Paper) :
    ∀ acc final, mergeLoop acc l = .ok final → ∀ p ∈ l, p.id.isSome := by
  induction l with
  | nil => intro acc final _ p hp; simp at hp
  | cons item rest ih =>
    intro acc final h p hp
    simp only [mergeLoop] at h
    split at h
    · exact absurd h (by simp)
    · rename_i i hid
      rcases List.mem_cons.mp hp with hh | hh
      · subst hh
        rw [hid]
        rfl
      · split at h
        · exact ih _ _ h p hh
        · split at h
          · exact absurd h (by simp)
          · exact ih _ _ h p hh

theorem mergeLoop_keys (l : List Paper) :
    ∀ acc final, mergeLoop acc l = .ok final →
      final.map Prod.fst = acc.map Prod.fst ++ newKeys (acc.map Prod.fst) l := by
  induction l with
  | nil =>
    intro acc final h
    simp only [mergeLoop] at h
    injection h with h
    subst h
    simp [newKeys]
  | cons item rest ih =>
    intro acc final h
    simp only [mergeLoop] at h
    split at h
    · exact absurd h (by simp)
    · rename_i i hid
      have hgid : getId item = i := by simp [getId, hid]
      split at h
      · rename_i hfind
        have hmem : i ∉ acc.map Prod.fst := assocFind_eq_none.mp hfind
        rw [ih _ _ h]
        simp only [newKeys, hgid]
        rw [if_neg hmem]
        simp [List.append_assoc]
      · rename_i base hfind
        split at h
        · exact absurd h (by simp)
        · rename_i cs hcat
          rw [ih _ _ h, assocUpdate_map_fst]
          have hmem : i ∈ acc.map Prod.fst := assocFind_mem_of_some hfind
          simp only [newKeys, hgid]
          rw [if_pos hmem]

theorem mergeLoop_find (l : List Paper) :
    ∀ acc final, mergeLoop acc l = .ok final → ∀ k,
      assocFind final k =
        match assocFind acc k with
        | some base => accumInto base (l.filter (fun p => p.id = some k))
        | none =>
          match l.filter (fun p => p.id = some k) with
          | [] => none
          | g :: gs => accumInto g gs := by
  induction l with
  | nil =>
    intro acc final h k
    simp only [mergeLoop] at h
    injection h with h
    subst h
    simp only [List.filter_nil]
    rcases hc : assocFind acc k with _ | base
    · rfl
    · rfl
  | cons item rest ih =>
    intro acc final h k
    simp only [mergeLoop] at h
    split at h
    · exact absurd h (by simp)
    · rename_i i hid
      split at h
      · rename_i hfind
        rw [ih _ _ h k]
        by_cases hki : i = k
        · subst hki
          rw [assocFind_append hfind, if_pos rfl, hfind]
          have hfil : (item :: rest).filter (fun p => p.id = some i) =
              item :: rest.filter (fun p => p.id = some i) := by
            rw [List.filter_cons_of_pos (by simp [hid])]
          rw [hfil]
        · rw [assocFind_append hfind, if_neg hki]
          have hfil : (item :: rest).filter (fun p => p.id = some k) =
              rest.filter (fun p => p.id = some k) := by
            rw [List.filter_cons_of_neg (by simp [hid, hki])]
          rw [hfil]
      · rename_i base hfind
        split at h
        · exact absurd h (by simp)
        · rename_i cs hcat
          rw [ih _ _ h k]
          by_cases hki : i = k
          · subst hki
            rw [assocFind_update_self hfind, hfind]
            have hfil : (item :: rest).filter (fun p => p.id = some i) =
                item :: rest.filter (fun p => p.id = some i) := by
              rw [List.filter_cons_of_pos (by simp [hid])]
            rw [hfil]
            show accumInto { base with category := some (cs ++ getCats item) }
                (rest.filter (fun p => p.id = some i))
              = accumInto base (item :: rest.filter (fun p => p.id = some i))
            conv_rhs => rw [accumInto, hcat]
          · rw [assocFind_update_ne hki]
            have hfil : (item :: rest).filter (fun p => p.id = some k) =
                rest.filter (fun p => p.id = some k) := by
              rw [List.filter_cons_of_neg (by simp [hid, hki])]
            rw [hfil]

theorem finalizeMerge_ok (acc : List (String × Paper)) :
    ∀ result, finalizeMerge acc = .ok result →
      result = acc.map (fun kv => { kv.2 with category := some (setList (getCats kv.2)) }) ∧
      ∀ kv ∈ acc, (kv.2.category).isSome := by
  induction acc with
  | nil =>
    intro result h
    simp only [finalizeMerge] at h
    injection h with h
    subst h
    simp
  | cons kv rest ih =>
    intro result h
    simp only [finalizeMerge] at h
    split at h
    · exact absurd h (by simp)
    · rename_i cs hcat
      rcases hrec : finalizeMerge rest with e | tail
      · rw [hrec] at h
        exact absurd h (by simp [Except.map])
      · rw [hrec] at h
        simp only [Except.map] at h
        injection h with h
        obtain ⟨htail, hall⟩ := ih tail hrec
        constructor
        · rw [← h, htail, List.map_cons]
          have hg : getCats kv.2 = cs := by simp [getCats, hcat]
          rw [hg]
        · intro kv2 hkv2
          rcases List.mem_cons.mp hkv2 with hh | hh
          · subst hh
            rw [hcat]
            rfl
          · exact hall kv2 hh

/-- The merged result, when `perform_merge`'s in-memory step succeeds, is
exactly the specification-level merge. -/
theorem mergeRecords_ok_eq (papers result : List Paper)
    (h : mergeRecords papers = .ok result) : result = canonicalMerge papers := by
  rcases hml : mergeLoop [] papers with e | acc
  · rw [mergeRecords, hml] at h
    exact absurd h (by simp [Except.bind])
  · have hfin : finalizeMerge acc = .ok result := by
      rw [mergeRecords, hml] at h
      simpa [Except.bind] using h
    obtain ⟨hres, hsome⟩ := finalizeMerge_ok acc result hfin
    have hids := mergeLoop_ids_isSome papers [] acc hml
    have hkeys : acc.map Prod.fst = newKeys [] papers := by
      have hk := mergeLoop_keys papers [] acc hml
      simpa using hk
    have hnd : (acc.map Prod.fst).Nodup := by
      rw [hkeys]
      exact (newKeys_nodup_and papers []).1
    have hval := mergeLoop_find papers [] acc hml
    have hacc := assoc_eq_keys_map acc hnd
    rw [hres]
    conv_lhs => rw [hacc]
    rw [List.map_map, hkeys]
    unfold canonicalMerge
    apply List.map_congr_left
    intro k hk
    simp only [Function.comp_apply]
    obtain ⟨p, hpmem, hpid0⟩ := newKeys_mem papers [] k hk
    have hpid : p.id = some k := by
      rcases hid : p.id with _ | j
      · have hcontra := hids p hpmem
        rw [hid] at hcontra
        exact absurd hcontra (by simp)
      · have hj : j = k := by
          rw [← hpid0]
          simp [getId, hid]
        rw [hj]
    have hocc : (firstOcc papers k).isSome := by
      rw [firstOcc, List.find?_isSome]
      exact ⟨p, hpmem, by simp [hpid]⟩
    obtain ⟨f0, hf0⟩ := Option.isSome_iff_exists.mp hocc
    rcases hfil : papers.filter (fun q => q.id = some k) with _ | ⟨g, gs⟩
    · have hh := find?_eq_head?_filter (fun q => decide (q.id = some k)) papers
      rw [hfil] at hh
      rw [firstOcc] at hf0
      rw [hf0] at hh
      exact absurd hh (by simp)
    · have hg : g = f0 := by
        have hh := find?_eq_head?_filter (fun q => decide (q.id = some k)) papers
        rw [hfil] at hh
        rw [firstOcc] at hf0
        rw [hf0] at hh
        simp only [List.head?_cons] at hh
        injection hh with hh
        exact hh.symm
      subst hg
      have hv3 : assocFind acc k = accumInto g gs := by
        have hv2 : assocFind acc k =
            match papers.filter (fun q => q.id = some k) with
            | [] => none
            | g2 :: gs2 => accumInto g2 gs2 := hval k
        rw [hfil] at hv2
        exact hv2
      have hks : k ∈ acc.map Prod.fst := by
        rw [hkeys]
        exact hk
      have hsome2 : (assocFind acc k).isSome := assocFind_isSome_of_mem hks
      rw [hv3] at hsome2
      rcases hc0 : g.category with _ | cs0
      · rcases gs with _ | ⟨g1, gs1⟩
        · have hvv : assocFind acc k = some g := hv3
          have hmemacc : (k, g) ∈ acc := by
            rw [hacc]
            apply List.mem_map.mpr
            refine ⟨k, hks, ?_⟩
            rw [hvv]
            rfl
          have hcatk : (g.category).isSome := hsome ⟨k, g⟩ hmemacc
          rw [hc0] at hcatk
          exact absurd hcatk (by simp)
        · have hnone : accumInto g (g1 :: gs1) = none := by
            simp only [accumInto]
            rw [hc0]
          rw [hnone] at hsome2
          exact absurd hsome2 (by simp)
      · have hacd := accumInto_some_cat gs g cs0 hc0
        rw [hv3, hacd, Option.getD_some]
        have hgc : groupCats papers k = cs0 ++ (gs.map getCats).flatten := by
          rw [groupCats, hfil, List.map_cons, List.flatten_cons]
          congr 1
          simp [getCats, hc0]
        rw [mergedPaper, hf0]
        simp [getCats, hgc]

theorem id_eq_some_getId {p : Paper} (h : p.id.isSome) : p.id = some (getId p) := by
  rcases hid : p.id with _ | j
  · rw [hid] at h
    exact absurd h (by simp)
  · simp [getId, hid]

theorem canonicalMerge_ids (papers : List Paper) :
    (canonicalMerge papers).map getId = newKeys [] papers := by
  unfold canonicalMerge
  rw [List.map_map]
  have hcg : ∀ k ∈ newKeys [] papers, (getId ∘ mergedPaper papers) k = id k := by
    intro k _
    exact getId_mergedPaper papers k
  rw [List.map_congr_left hcg, List.map_id]

theorem firstOcc_of_newKeys (papers : List Paper)
    (hids : ∀ p ∈ papers, p.id.isSome) {k : String} (hk : k ∈ newKeys [] papers) :
    (firstOcc papers k).isSome := by
  obtain ⟨p, hpmem, hpid0⟩ := newKeys_mem papers [] k hk
  have hpid : p.id = some k := by
    rw [id_eq_some_getId (hids p hpmem), hpid0]
  rw [firstOcc, List.find?_isSome]
  exact ⟨p, hpmem, by simp [hpid]⟩

theorem canonicalMerge_mem_spec (papers : List Paper)
    (hids : ∀ p ∈ papers, p.id.isSome) :
    ∀ r ∈ canonicalMerge papers, ∃ f0, firstOcc papers (getId r) = some f0 ∧
      r.id = f0.id ∧ r.payload = f0.payload ∧
      ∃ cs, r.category = some cs ∧ cs.Nodup ∧
        cs.toFinset = (groupCats papers (getId r)).toFinset := by
  intro r hr
  obtain ⟨k, hk, hrk⟩ := List.mem_map.mp hr
  subst hrk
  rw [getId_mergedPaper]
  obtain ⟨f0, hf0⟩ := Option.isSome_iff_exists.mp (firstOcc_of_newKeys papers hids hk)
  refine ⟨f0, hf0, ?_, ?_,
    ⟨setList (groupCats papers k), ?_, setList_nodup _, setList_toFinset _⟩⟩
  · rw [mergedPaper, hf0]
  · rw [mergedPaper, hf0]
  · rw [mergedPaper, hf0]

/-- Branch extraction: what a merge_success run of perform_merge entails. -/
theorem perform_merge_success_elim (fs : FS) (d : Int)
    (hs : (perform_merge fs d).1 = .merge_success) :
    (load_papers_data (fs.files d)).1 ≠ [] ∧
    mergeRecords (load_papers_data (fs.files d)).1 =
      .ok (canonicalMerge (load_papers_data (fs.files d)).1) ∧
    fs.writeOk d = true ∧
    (perform_merge fs d).2 =
      setFile fs d (.good (canonicalMerge (load_papers_data (fs.files d)).1)) := by
  by_cases h1 : fs.files d = .absent
  · have hv : perform_merge fs d = (.no_data, fs) := by
      simp only [perform_merge]
      rw [if_pos h1]
    rw [hv] at hs
    exact absurd hs (by simp)
  · by_cases h2 : (load_papers_data (fs.files d)).1 = []
    · have hv : perform_merge fs d = (.no_data, fs) := by
        simp only [perform_merge]
        rw [if_neg h1, if_pos h2]
      rw [hv] at hs
      exact absurd hs (by simp)
    · rcases hm : mergeRecords (load_papers_data (fs.files d)).1 with e | res
      · have hv : perform_merge fs d = (.error, fs) := by
          simp only [perform_merge]
          rw [if_neg h1, if_neg h2, hm]
        rw [hv] at hs
        exact absurd hs (by simp)
      · by_cases h5 : fs.writeOk d = true
        · have hres : res = canonicalMerge (load_papers_data (fs.files d)).1 :=
            mergeRecords_ok_eq _ _ hm
          have hv : perform_merge fs d = (.merge_success, setFile fs d (.good res)) := by
            simp only [perform_merge, save_papers_data]
            rw [if_neg h1, if_neg h2, hm]
            simp [h5]
          refine ⟨h2, ?_, h5, ?_⟩
          · rw [hres]
          · rw [hv, hres]
        · have hv : perform_merge fs d = (.error, fs) := by
            simp only [perform_merge, save_papers_data]
            rw [if_neg h1, if_neg h2, hm]
            simp [h5]
          rw [hv] at hs
          exact absurd hs (by simp)

/-- C2: after a successful perform_merge, the store holds exactly the
specification-level merge of the loaded records: one record per
identifier, ids in first-seen order with the first occurrence as base, and
each record's category the duplicate-free set of the whole group's
categories. -/
theorem merge_canonical_spec (fs : FS) (d : Int) (papers : List Paper)
    (hf : fs.files d = .good papers)
    (hs : (perform_merge fs d).1 = .merge_success) :
    (perform_merge fs d).2.files d = .good (canonicalMerge papers) ∧
    mergeRecords papers = .ok (canonicalMerge papers) ∧
    ((canonicalMerge papers).map getId).Nodup ∧
    (canonicalMerge papers).map getId = newKeys [] papers ∧
    ∀ r ∈ canonicalMerge papers, ∃ f0, firstOcc papers (getId r) = some f0 ∧
      r.id = f0.id ∧ r.payload = f0.payload ∧
      ∃ cs, r.category = some cs ∧ cs.Nodup ∧
        cs.toFinset = (groupCats papers (getId r)).toFinset := by
  obtain ⟨hne, hok, hw, hstate⟩ := perform_merge_success_elim fs d hs
  have hl1 : (load_papers_data (fs.files d)).1 = papers := by rw [hf, load_good]
  rw [hl1] at hok hstate
  have hids : ∀ p ∈ papers, p.id.isSome := by
    rcases hml : mergeLoop [] papers with e | acc
    · rw [mergeRecords, hml] at hok
      exact absurd hok (by simp [Except.bind])
    · exact mergeLoop_ids_isSome papers [] acc hml
  refine ⟨?_, hok, ?_, canonicalMerge_ids papers, canonicalMerge_mem_spec papers hids⟩
  · rw [hstate]
    simp [setFile]
  · rw [canonicalMerge_ids papers]
    exact (newKeys_nodup_and papers []).1

/-- Witness for C2 at a concrete store holding two records with the same
id under different categories. -/
theorem merge_canonical_spec_witness :
    (perform_merge fsMergeW 0).2.files 0 = .good (canonicalMerge [pA, pA2]) ∧
    canonicalMerge [pA, pA2] =
      [{ id := some "A", category := some ["IS", "MKT"], payload := 0 }] :=
  ⟨(merge_canonical_spec fsMergeW 0 [pA, pA2] (by decide) (by decide)).1, by decide⟩

/-! ### Merge idempotence (claim C8) -/

theorem mergeLoop_fresh (l : List Paper) :
    ∀ acc, (∀ p ∈ l, p.id.isSome) → ((l.map getId).Nodup) →
      (∀ p ∈ l, getId p ∉ acc.map Prod.fst) →
      mergeLoop acc l = .ok (acc ++ l.map (fun p => (getId p, p))) := by
  induction l with
  | nil => intro acc _ _ _; simp [mergeLoop]
  | cons p rest ih =>
    intro acc hids hnd hfresh
    have hpid : p.id = some (getId p) := id_eq_some_getId (hids p (List.mem_cons_self _ _))
    simp only [mergeLoop]
    split
    · rename_i heq
      rw [hpid] at heq
      exact absurd heq (by simp)
    · rename_i i heq
      have hi : i = getId p := by
        rw [hpid] at heq
        injection heq with heq
        exact heq.symm
      subst hi
      split
      · rename_i hfind
        rw [ih (acc ++ [(getId p, p)]) (fun q hq => hids q (List.mem_cons_of_mem _ hq))
          ((List.nodup_cons.mp (by simpa using hnd)).2) ?_]
        · simp [List.append_assoc]
        · intro q hq
          rw [List.map_append]
          intro hmem
          rcases List.mem_append.mp hmem with hh | hh
          · exact hfresh q (List.mem_cons_of_mem _ hq) hh
          · simp only [List.map_cons, List.map_nil, List.mem_singleton] at hh
            have hq2 : getId q ∈ rest.map getId := List.mem_map.mpr ⟨q, hq, rfl⟩
            have hp2 : getId p ∉ rest.map getId := (List.nodup_cons.mp (by simpa using hnd)).1
            rw [hh] at hq2
            exact hp2 hq2
      · rename_i base hfind
        have := assocFind_mem_of_some hfind
        exact absurd this (hfresh p (List.mem_cons_self _ _))

theorem finalizeMerge_map (l : List Paper) :
    (∀ p ∈ l, (p.category).isSome) →
      finalizeMerge (l.map (fun p => (getId p, p))) =
        .ok (l.map (fun p => { p with category := some (setList (getCats p)) })) := by
  induction l with
  | nil => intro _; rfl
  | cons p rest ih =>
    intro hcat
    obtain ⟨cs, hcs⟩ := Option.isSome_iff_exists.mp (hcat p (List.mem_cons_self _ _))
    simp only [List.map_cons, finalizeMerge]
    split
    · rename_i heq
      rw [hcs] at heq
      exact absurd heq (by simp)
    · rename_i cs2 heq
      rw [ih (fun q hq => hcat q (List.mem_cons_of_mem _ hq))]
      simp only [Except.map]
      have hg : getCats p = cs2 := by simp [getCats, heq]
      rw [hg]

theorem mergeRecords_merged (l : List Paper)
    (hid : ∀ p ∈ l, p.id.isSome) (hnd : (l.map getId).Nodup)
    (hcat : ∀ p ∈ l, ∃ cs, p.category = some cs ∧ setList cs = cs) :
    mergeRecords l = .ok l := by
  rw [mergeRecords, mergeLoop_fresh l [] hid hnd (by simp)]
  simp only [List.nil_append, Except.bind]
  rw [finalizeMerge_map l ?hsome]
  case hsome =>
    intro p hp
    obtain ⟨cs, hcs, _⟩ := hcat p hp
    rw [hcs]
    rfl
  have hmapid : l.map (fun p => { p with category := some (setList (getCats p)) }) = l := by
    have hcong : ∀ p ∈ l, (fun p => { p with category := some (setList (getCats p)) }) p = id p := by
      intro p hp
      obtain ⟨cs, hcs, hsl⟩ := hcat p hp
      have hgc : getCats p = cs := by simp [getCats, hcs]
      simp only [hgc, hsl, id]
      rcases p with ⟨pid, pcat, ppay⟩
      simp only at hcs
      rw [hcs]
    rw [List.map_congr_left hcong, List.map_id]
  rw [hmapid]

theorem setFile_setFile (fs : FS) (d : Int) (st : FileState) :
    setFile (setFile fs d st) d st = setFile fs d st := by
  unfold setFile
  congr 1
  funext x
  by_cases hx : x = d
  · simp [hx]
  · simp [hx]

/-- Fixed-enumeration special case: when both merge executions enumerate
sets in the same deterministic first-occurrence order, a second
perform_merge of an already-merged store succeeds and changes nothing. -/
theorem merge_idempotent (fs : FS) (d : Int)
    (hs : (perform_merge fs d).1 = .merge_success) :
    perform_merge (perform_merge fs d).2 d = (.merge_success, (perform_merge fs d).2) := by
  obtain ⟨hne, hok, hw, hstate⟩ := perform_merge_success_elim fs d hs
  have hids : ∀ p ∈ (load_papers_data (fs.files d)).1, p.id.isSome := by
    rcases hml : mergeLoop [] (load_papers_data (fs.files d)).1 with e | acc
    · rw [mergeRecords, hml] at hok
      exact absurd hok (by simp [Except.bind])
    · exact mergeLoop_ids_isSome _ [] acc hml
  have hresid : ∀ r ∈ canonicalMerge (load_papers_data (fs.files d)).1, r.id.isSome := by
    intro r hr
    obtain ⟨k, hk, hrk⟩ := List.mem_map.mp hr
    subst hrk
    unfold mergedPaper
    rcases hf0 : firstOcc (load_papers_data (fs.files d)).1 k with _ | f0
    · rfl
    · have hf2 : (load_papers_data (fs.files d)).1.find? (fun q => decide (q.id = some k)) =
          some f0 := hf0
      have hp0 := List.find?_some hf2
      have hid0 : f0.id = some k := of_decide_eq_true hp0
      simp [hid0]
  have hresnd : ((canonicalMerge (load_papers_data (fs.files d)).1).map getId).Nodup := by
    rw [canonicalMerge_ids]
    exact (newKeys_nodup_and _ []).1
  have hrescat : ∀ r ∈ canonicalMerge (load_papers_data (fs.files d)).1,
      ∃ cs, r.category = some cs ∧ setList cs = cs := by
    intro r hr
    obtain ⟨k, hk, hrk⟩ := List.mem_map.mp hr
    subst hrk
    unfold mergedPaper
    rcases hf0 : firstOcc (load_papers_data (fs.files d)).1 k with _ | f0
    · exact ⟨[], rfl, rfl⟩
    · exact ⟨setList (groupCats (load_papers_data (fs.files d)).1 k), rfl, setList_idem _⟩
  have hmm2 : mergeRecords (canonicalMerge (load_papers_data (fs.files d)).1) =
      .ok (canonicalMerge (load_papers_data (fs.files d)).1) :=
    mergeRecords_merged _ hresid hresnd hrescat
  have hresne : canonicalMerge (load_papers_data (fs.files d)).1 ≠ [] := by
    rcases hpp : (load_papers_data (fs.files d)).1 with _ | ⟨p0, prest⟩
    · exact absurd hpp hne
    · unfold canonicalMerge
      intro hc
      exact newKeys_ne_nil (List.map_eq_nil_iff.mp hc)
  rw [hstate]
  have hfd : (setFile fs d (.good (canonicalMerge (load_papers_data (fs.files d)).1))).files d =
      .good (canonicalMerge (load_papers_data (fs.files d)).1) := by
    simp [setFile]
  have h1 : ¬ (setFile fs d (.good (canonicalMerge (load_papers_data (fs.files d)).1))).files d =
      .absent := by
    rw [hfd]
    exact fun hh => FileState.noConfusion hh
  have h2 : ¬ (load_papers_data ((setFile fs d
      (.good (canonicalMerge (load_papers_data (fs.files d)).1))).files d)).1 = [] := by
    rw [hfd, load_good]
    exact hresne
  have hm3 : mergeRecords (load_papers_data ((setFile fs d
      (.good (canonicalMerge (load_papers_data (fs.files d)).1))).files d)).1 =
      .ok (canonicalMerge (load_papers_data (fs.files d)).1) := by
    rw [hfd, load_good]
    exact hmm2
  have hw2 : (setFile fs d (.good (canonicalMerge (load_papers_data (fs.files d)).1))).writeOk d =
      true := hw
  have hv : perform_merge (setFile fs d (.good (canonicalMerge (load_papers_data (fs.files d)).1))) d =
      (.merge_success, setFile (setFile fs d (.good (canonicalMerge (load_papers_data (fs.files d)).1)))
        d (.good (canonicalMerge (load_papers_data (fs.files d)).1))) := by
    simp only [perform_merge, save_papers_data]
    rw [if_neg h1, if_neg h2, hm3]
    simp [hw2]
  rw [hv, setFile_setFile]

/-- A store holding three records, two of which share an id. -/
def fsMergeY : FS :=
  { files := fun x => if x = 0 then .good [pA, pA2, pB] else .absent,
    writeOk := fun _ => true, removeOk := fun _ => true }

/-- The fixed-enumeration no-op at a concrete store. -/
theorem merge_idempotent_witness :
    perform_merge (perform_merge fsMergeY 0).2 0 = (.merge_success, (perform_merge fsMergeY 0).2) :=
  merge_idempotent fsMergeY 0 (by decide)

/-! ### Records lacking an id (claim C10) -/

theorem mergeLoop_error_of_none (l : List Paper) :
    ∀ acc, (∃ p ∈ l, p.id = none) → mergeLoop acc l = .error () := by
  induction l with
  | nil => intro acc h; simp at h
  | cons item rest ih =>
    intro acc h
    obtain ⟨p, hp, hpid⟩ := h
    simp only [mergeLoop]
    rcases List.mem_cons.mp hp with hh | hh
    · subst hh
      split
      · rfl
      · rename_i i heq
        rw [hpid] at heq
        exact absurd heq (by simp)
    · split
      · rfl
      · split
        · exact ih _ ⟨p, hh, hpid⟩
        · split
          · rfl
          · exact ih _ ⟨p, hh, hpid⟩

theorem dedup_not_error_of_writeOk (fs : FS) (d : Int) (hw : fs.writeOk d = true) :
    (perform_deduplication fs d).1 ≠ .error := by
  by_cases h1 : fs.files d = .absent
  · have hv : perform_deduplication fs d = (.no_data, fs) := by
      simp only [perform_deduplication]
      rw [if_pos h1]
    simp [hv]
  · by_cases h2 : (load_papers_data (fs.files d)).1 = []
    · have hv : perform_deduplication fs d = (.no_data, fs) := by
        simp only [perform_deduplication]
        rw [if_neg h1, if_pos h2]
      simp [hv]
    · by_cases h3 : (load_papers_data (fs.files d)).2 ∩ historyIds fs d ≠ ∅
      · by_cases h4 : (load_papers_data (fs.files d)).1.filter
            (fun p => getId p ∉ (load_papers_data (fs.files d)).2 ∩ historyIds fs d) ≠ []
        · have hv : perform_deduplication fs d =
              (.has_new_content, setFile fs d (.good
                ((load_papers_data (fs.files d)).1.filter
                  (fun p => getId p ∉ (load_papers_data (fs.files d)).2 ∩ historyIds fs d)))) := by
            simp only [perform_deduplication, save_papers_data]
            rw [if_neg h1, if_neg h2, if_pos h3, if_pos h4, if_pos hw]
            rfl
          simp [hv]
        · by_cases h5 : fs.removeOk d = true
          · have hv : perform_deduplication fs d = (.no_new_content, setFile fs d .absent) := by
              simp only [perform_deduplication, removeFile]
              rw [if_neg h1, if_neg h2, if_pos h3, if_neg h4, if_pos h5]
            simp [hv]
          · have hv : perform_deduplication fs d = (.no_new_content, fs) := by
              simp only [perform_deduplication, removeFile]
              rw [if_neg h1, if_neg h2, if_pos h3, if_neg h4, if_neg h5]
            simp [hv]
      · have hv : perform_deduplication fs d = (.has_new_content, fs) := by
          simp only [perform_deduplication]
          rw [if_neg h1, if_neg h2, if_neg h3]
        simp [hv]

/-- C10: a record lacking the id key makes perform_merge raise internally
and report error (so the gate exits 2), whereas load_papers_data treats
its identifier as the empty string, and perform_deduplication (whose
loader never raises) does not report error because of such a record
whenever the rewrite of the store would succeed. -/
theorem merge_missing_id (fs : FS) (d : Int) (papers : List Paper) (p : Paper)
    (hf : fs.files d = .good papers) (hp : p ∈ papers) (hid : p.id = none) :
    (perform_merge fs d).1 = .error ∧
    (checkStatsMain fs d).1 = 2 ∧
    "" ∈ (load_papers_data (fs.files d)).2 ∧
    (fs.writeOk d = true → (perform_deduplication fs d).1 ≠ .error) := by
  have h1 : ¬ fs.files d = .absent := by
    rw [hf]
    exact fun hh => FileState.noConfusion hh
  have hl1 : (load_papers_data (fs.files d)).1 = papers := by rw [hf, load_good]
  have h2 : ¬ (load_papers_data (fs.files d)).1 = [] := by
    rw [hl1]
    exact List.ne_nil_of_mem hp
  have hmerr : mergeRecords (load_papers_data (fs.files d)).1 = .error () := by
    rw [hl1, mergeRecords, mergeLoop_error_of_none papers [] ⟨p, hp, hid⟩]
    rfl
  have hv : perform_merge fs d = (.error, fs) := by
    simp only [perform_merge]
    rw [if_neg h1, if_neg h2, hmerr]
  refine ⟨by rw [hv], ?_, ?_, fun hw => dedup_not_error_of_writeOk fs d hw⟩
  · simp [checkStatsMain, hv]
  · rw [hf, load_good]
    apply List.mem_toFinset.mpr
    apply List.mem_map.mpr
    exact ⟨p, hp, by simp [getId, hid]⟩

/-- A store whose only record lacks the id key. -/
def fsNoId : FS :=
  { files := fun x => if x = 0 then .good [pNoId] else .absent,
    writeOk := fun _ => true, removeOk := fun _ => true }

/-- Witness for C10 at a concrete store. -/
theorem merge_missing_id_witness :
    (perform_merge fsNoId 0).1 = .error ∧ (checkStatsMain fsNoId 0).1 = 2 ∧
    (perform_deduplication fsNoId 0).1 ≠ .error :=
  ⟨(merge_missing_id fsNoId 0 [pNoId] pNoId (by decide) (by decide) (by decide)).1,
   (merge_missing_id fsNoId 0 [pNoId] pNoId (by decide) (by decide) (by decide)).2.1,
   (merge_missing_id fsNoId 0 [pNoId] pNoId (by decide) (by decide) (by decide)).2.2.2 (by decide)⟩

/-! ### Run-dependent set enumeration (claim C8 revisited)

Python's `list(set(xs))` enumerates the distinct values of `xs` in a
hash-seed-dependent order, and every invocation of check_stats.py is a
separate interpreter run. A run's behavior is modelled as a function
`o : List String → List String` that returns a duplicate-free enumeration
of the input's distinct values; `setList` is one such behavior, and the
merge is parameterized by it below. -/

/-- The reversed first-occurrence enumeration: another order a Python set
may present the same distinct values in under hash randomization. -/
def setListRev (l : List String) : List String := (setList l).reverse

theorem setListRev_nodup (l : List String) : (setListRev l).Nodup :=
  List.nodup_reverse.mpr (setList_nodup l)

theorem mem_setListRev {l : List String} {x : String} : x ∈ setListRev l ↔ x ∈ l := by
  rw [setListRev, List.mem_reverse, mem_setList]

/-- The finalization loop of `perform_merge` under the enumeration
behavior `o` of the current interpreter run. -/
def finalizeMergeRun (o : List String → List String) :
    List (String × Paper) → Except Unit (List Paper)
  | [] => .ok []
  | kv :: rest =>
    match kv.2.category with
    | none => .error ()
    | some cs =>
      (finalizeMergeRun o rest).map (fun tail => { kv.2 with category := some (o cs) } :: tail)

/-- The in-memory merge under the enumeration behavior `o`. -/
def mergeRecordsRun (o : List String → List String) (papers : List Paper) :
    Except Unit (List Paper) :=
  (mergeLoop [] papers).bind (finalizeMergeRun o)

/-- `perform_merge(date)` as executed by an interpreter run whose
`list(set(...))` behaves as `o`. -/
def perform_mergeRun (o : List String → List String) (fs : FS) (d : Int) : Status × FS :=
  if fs.files d = .absent then (.no_data, fs)
  else
    let loaded := load_papers_data (fs.files d)
    if loaded.1 = [] then (.no_data, fs)
    else
      match mergeRecordsRun o loaded.1 with
      | .error _ => (.error, fs)
      | .ok result =>
        let sv := save_papers_data fs d result
        if sv.1 then (.merge_success, sv.2) else (.error, sv.2)

theorem finalizeMergeRun_setList (acc : List (String × Paper)) :
    finalizeMergeRun setList acc = finalizeMerge acc := by
  induction acc with
  | nil => rfl
  | cons kv rest ih =>
    simp only [finalizeMergeRun, finalizeMerge]
    cases hc : kv.2.category
    · rfl
    · rw [ih]

theorem mergeRecordsRun_setList (papers : List Paper) :
    mergeRecordsRun setList papers = mergeRecords papers := by
  rw [mergeRecordsRun, mergeRecords]
  cases hml : mergeLoop [] papers
  · rfl
  · simp only [Except.bind]
    exact finalizeMergeRun_setList _

/-- The base model's merge is the `setList`-run instance of the
run-parameterized merge. -/
theorem perform_mergeRun_setList (fs : FS) (d : Int) :
    perform_mergeRun setList fs d = perform_merge fs d := by
  simp only [perform_mergeRun, perform_merge, mergeRecordsRun_setList]

/-- The specification-level merged record for identifier `k` under the
enumeration behavior `o`. -/
def mergedPaperRun (o : List String → List String) (papers : List Paper) (k : String) : Paper :=
  match firstOcc papers k with
  | some f => { f with category := some (o (groupCats papers k)) }
  | none => { id := some k, category := some [], payload := 0 }

/-- The specification-level merge result under the enumeration behavior
`o`. -/
def canonicalMergeRun (o : List String → List String) (papers : List Paper) : List Paper :=
  (newKeys [] papers).map (mergedPaperRun o papers)

theorem getId_mergedPaperRun (o : List String → List String) (papers : List Paper) (k : String) :
    getId (mergedPaperRun o papers k) = k := by
  unfold mergedPaperRun
  rcases hf : firstOcc papers k with _ | f
  · rfl
  · have hf2 : papers.find? (fun p => decide (p.id = some k)) = some f := hf
    have hp := List.find?_some hf2
    have hid : f.id = some k := of_decide_eq_true hp
    simp [getId, hid]

theorem canonicalMergeRun_ids (o : List String → List String) (papers : List Paper) :
    (canonicalMergeRun o papers).map getId = newKeys [] papers := by
  unfold canonicalMergeRun
  rw [List.map_map]
  have hcg : ∀ k ∈ newKeys [] papers, (getId ∘ mergedPaperRun o papers) k = id k := by
    intro k _
    exact getId_mergedPaperRun o papers k
  rw [List.map_congr_left hcg, List.map_id]

theorem finalizeMergeRun_ok (o : List String → List String) (acc : List (String × Paper)) :
    ∀ result, finalizeMergeRun o acc = .ok result →
      result = acc.map (fun kv => { kv.2 with category := some (o (getCats kv.2)) }) ∧
      ∀ kv ∈ acc, (kv.2.category).isSome := by
  induction acc with
  | nil =>
    intro result h
    simp only [finalizeMergeRun] at h
    injection h with h
    subst h
    simp
  | cons kv rest ih =>
    intro result h
    simp only [finalizeMergeRun] at h
    split at h
    · exact absurd h (by simp)
    · rename_i cs hcat
      rcases hrec : finalizeMergeRun o rest with e | tail
      · rw [hrec] at h
        exact absurd h (by simp [Except.map])
      · rw [hrec] at h
        simp only [Except.map] at h
        injection h with h
        obtain ⟨htail, hall⟩ := ih tail hrec
        constructor
        · rw [← h, htail, List.map_cons]
          have hg : getCats kv.2 = cs := by simp [getCats, hcat]
          rw [hg]
        · intro kv2 hkv2
          rcases List.mem_cons.mp hkv2 with hh | hh
          · subst hh
            rw [hcat]
            rfl
          · exact hall kv2 hh

theorem finalizeMergeRun_map (o : List String → List String) (l : List Paper) :
    (∀ p ∈ l, (p.category).isSome) →
      finalizeMergeRun o (l.map (fun p => (getId p, p))) =
        .ok (l.map (fun p => { p with category := some (o (getCats p)) })) := by
  induction l with
  | nil => intro _; rfl
  | cons p rest ih =>
    intro hcat
    obtain ⟨cs, hcs⟩ := Option.isSome_iff_exists.mp (hcat p (List.mem_cons_self _ _))
    simp only [List.map_cons, finalizeMergeRun]
    split
    · rename_i heq
      rw [hcs] at heq
      exact absurd heq (by simp)
    · rename_i cs2 heq
      rw [ih (fun q hq => hcat q (List.mem_cons_of_mem _ hq))]
      simp only [Except.map]
      have hg : getCats p = cs2 := by simp [getCats, heq]
      rw [hg]

/-- Run-parameterized analogue of the merge characterization: a successful
in-memory merge under behavior `o` yields exactly the specification-level
merge under `o`. -/
theorem mergeRecordsRun_ok_eq (o : List String → List String) (papers result : List Paper)
    (h : mergeRecordsRun o papers = .ok result) : result = canonicalMergeRun o papers := by
  rcases hml : mergeLoop [] papers with e | acc
  · rw [mergeRecordsRun, hml] at h
    exact absurd h (by simp [Except.bind])
  · have hfin : finalizeMergeRun o acc = .ok result := by
      rw [mergeRecordsRun, hml] at h
      simpa [Except.bind] using h
    obtain ⟨hres, hsome⟩ := finalizeMergeRun_ok o acc result hfin
    have hids := mergeLoop_ids_isSome papers [] acc hml
    have hkeys : acc.map Prod.fst = newKeys [] papers := by
      have hk := mergeLoop_keys papers [] acc hml
      simpa using hk
    have hnd : (acc.map Prod.fst).Nodup := by
      rw [hkeys]
      exact (newKeys_nodup_and papers []).1
    have hval := mergeLoop_find papers [] acc hml
    have hacc := assoc_eq_keys_map acc hnd
    rw [hres]
    conv_lhs => rw [hacc]
    rw [List.map_map, hkeys]
    unfold canonicalMergeRun
    apply List.map_congr_left
    intro k hk
    simp only [Function.comp_apply]
    obtain ⟨p, hpmem, hpid0⟩ := newKeys_mem papers [] k hk
    have hpid : p.id = some k := by
      rcases hid : p.id with _ | j
      · have hcontra := hids p hpmem
        rw [hid] at hcontra
        exact absurd hcontra (by simp)
      · have hj : j = k := by
          rw [← hpid0]
          simp [getId, hid]
        rw [hj]
    have hocc : (firstOcc papers k).isSome := by
      rw [firstOcc, List.find?_isSome]
      exact ⟨p, hpmem, by simp [hpid]⟩
    obtain ⟨f0, hf0⟩ := Option.isSome_iff_exists.mp hocc
    rcases hfil : papers.filter (fun q => q.id = some k) with _ | ⟨g, gs⟩
    · have hh := find?_eq_head?_filter (fun q => decide (q.id = some k)) papers
      rw [hfil] at hh
      rw [firstOcc] at hf0
      rw [hf0] at hh
      exact absurd hh (by simp)
    · have hg : g = f0 := by
        have hh := find?_eq_head?_filter (fun q => decide (q.id = some k)) papers
        rw [hfil] at hh
        rw [firstOcc] at hf0
        rw [hf0] at hh
        simp only [List.head?_cons] at hh
        injection hh with hh
        exact hh.symm
      subst hg
      have hv3 : assocFind acc k = accumInto g gs := by
        have hv2 : assocFind acc k =
            match papers.filter (fun q => q.id = some k) with
            | [] => none
            | g2 :: gs2 => accumInto g2 gs2 := hval k
        rw [hfil] at hv2
        exact hv2
      have hks : k ∈ acc.map Prod.fst := by
        rw [hkeys]
        exact hk
      have hsome2 : (assocFind acc k).isSome := assocFind_isSome_of_mem hks
      rw [hv3] at hsome2
      rcases hc0 : g.category with _ | cs0
      · rcases gs with _ | ⟨g1, gs1⟩
        · have hvv : assocFind acc k = some g := hv3
          have hmemacc : (k, g) ∈ acc := by
            rw [hacc]
            apply List.mem_map.mpr
            refine ⟨k, hks, ?_⟩
            rw [hvv]
            rfl
          have hcatk : (g.category).isSome := hsome ⟨k, g⟩ hmemacc
          rw [hc0] at hcatk
          exact absurd hcatk (by simp)
        · have hnone : accumInto g (g1 :: gs1) = none := by
            simp only [accumInto]
            rw [hc0]
          rw [hnone] at hsome2
          exact absurd hsome2 (by simp)
      · have hacd := accumInto_some_cat gs g cs0 hc0
        rw [hv3, hacd, Option.getD_some]
        have hgc : groupCats papers k = cs0 ++ (gs.map getCats).flatten := by
          rw [groupCats, hfil, List.map_cons, List.flatten_cons]
          congr 1
          simp [getCats, hc0]
        rw [mergedPaperRun, hf0]
        simp [getCats, hgc]

/-- Branch extraction for a merge_success run of the parameterized merge. -/
theorem perform_mergeRun_success_elim (o : List String → List String) (fs : FS) (d : Int)
    (hs : (perform_mergeRun o fs d).1 = .merge_success) :
    (load_papers_data (fs.files d)).1 ≠ [] ∧
    mergeRecordsRun o (load_papers_data (fs.files d)).1 =
      .ok (canonicalMergeRun o (load_papers_data (fs.files d)).1) ∧
    fs.writeOk d = true ∧
    (perform_mergeRun o fs d).2 =
      setFile fs d (.good (canonicalMergeRun o (load_papers_data (fs.files d)).1)) := by
  by_cases h1 : fs.files d = .absent
  · have hv : perform_mergeRun o fs d = (.no_data, fs) := by
      simp only [perform_mergeRun]
      rw [if_pos h1]
    rw [hv] at hs
    exact absurd hs (by simp)
  · by_cases h2 : (load_papers_data (fs.files d)).1 = []
    · have hv : perform_mergeRun o fs d = (.no_data, fs) := by
        simp only [perform_mergeRun]
        rw [if_neg h1, if_pos h2]
      rw [hv] at hs
      exact absurd hs (by simp)
    · rcases hm : mergeRecordsRun o (load_papers_data (fs.files d)).1 with e | res
      · have hv : perform_mergeRun o fs d = (.error, fs) := by
          simp only [perform_mergeRun]
          rw [if_neg h1, if_neg h2, hm]
        rw [hv] at hs
        exact absurd hs (by simp)
      · by_cases h5 : fs.writeOk d = true
        · have hres : res = canonicalMergeRun o (load_papers_data (fs.files d)).1 :=
            mergeRecordsRun_ok_eq o _ _ hm
          have hv : perform_mergeRun o fs d = (.merge_success, setFile fs d (.good res)) := by
            simp only [perform_mergeRun, save_papers_data]
            rw [if_neg h1, if_neg h2, hm]
            simp [h5]
          refine ⟨h2, ?_, h5, ?_⟩
          · rw [hres]
          · rw [hv, hres]
        · have hv : perform_mergeRun o fs d = (.error, fs) := by
            simp only [perform_mergeRun, save_papers_data]
            rw [if_neg h1, if_neg h2, hm]
            simp [h5]
          rw [hv] at hs
          exact absurd hs (by simp)

/-- A store holding two same-id records under two categories. -/
def fsMergeZ : FS :=
  { files := fun x => if x = 0 then .good [pA, pA2] else .absent,
    writeOk := fun _ => true, removeOk := fun _ => true }

/-- Counterexample to C8 as stated: the two merge executions are separate
interpreter runs, and list(set(...)) enumerates a set in a hash-seed
dependent order. With the first run enumerating in first-occurrence order
and the second in the reversed order (both legitimate enumerations of the
same set), the second merge of the already-merged store succeeds but
permutes the stored category list, so the store is not left identical. -/
theorem merge_idempotent_cx :
    (perform_mergeRun setList fsMergeZ 0).1 = .merge_success ∧
    (perform_mergeRun setListRev (perform_mergeRun setList fsMergeZ 0).2 0).1 =
      .merge_success ∧
    (perform_mergeRun setListRev (perform_mergeRun setList fsMergeZ 0).2 0).2.files 0 ≠
      (perform_mergeRun setList fsMergeZ 0).2.files 0 ∧
    (perform_mergeRun setList fsMergeZ 0).2.files 0 =
      .good [{ id := some "A", category := some ["IS", "MKT"], payload := 0 }] ∧
    (perform_mergeRun setListRev (perform_mergeRun setList fsMergeZ 0).2 0).2.files 0 =
      .good [{ id := some "A", category := some ["MKT", "IS"], payload := 0 }] := by
  decide

/-- C8 (amended): perform_merge is idempotent up to the interpreter's set
enumeration order. For any enumeration behaviors o1 and o2 of the two
runs' list(set(...)) (each returning a duplicate-free enumeration of the
distinct values), if the first merge succeeds then re-merging its output
under o2 succeeds as well, keeps the record list (ids, payloads, order)
identical, and changes at most the order inside each record's category
list: the new category list is o2 of the old one, duplicate-free and with
exactly the same set of values. -/
theorem merge_idempotent_upto (o1 o2 : List String → List String)
    (ho1nd : ∀ l, (o1 l).Nodup)
    (ho2nd : ∀ l, (o2 l).Nodup) (ho2m : ∀ l x, x ∈ o2 l ↔ x ∈ l)
    (fs : FS) (d : Int)
    (hs : (perform_mergeRun o1 fs d).1 = .merge_success) :
    (perform_mergeRun o1 fs d).2.files d =
      .good (canonicalMergeRun o1 (load_papers_data (fs.files d)).1) ∧
    perform_mergeRun o2 (perform_mergeRun o1 fs d).2 d =
      (.merge_success,
        setFile (perform_mergeRun o1 fs d).2 d
          (.good ((canonicalMergeRun o1 (load_papers_data (fs.files d)).1).map
            (fun p => { p with category := some (o2 (getCats p)) })))) ∧
    ∀ p ∈ canonicalMergeRun o1 (load_papers_data (fs.files d)).1,
      ∃ cs1, p.category = some cs1 ∧ cs1.Nodup ∧
        (o2 cs1).Nodup ∧ (o2 cs1).toFinset = cs1.toFinset := by
  obtain ⟨hne, hok, hw, hstate⟩ := perform_mergeRun_success_elim o1 fs d hs
  have hids : ∀ p ∈ (load_papers_data (fs.files d)).1, p.id.isSome := by
    rcases hml : mergeLoop [] (load_papers_data (fs.files d)).1 with e | acc
    · rw [mergeRecordsRun, hml] at hok
      exact absurd hok (by simp [Except.bind])
    · exact mergeLoop_ids_isSome _ [] acc hml
  have hresid : ∀ r ∈ canonicalMergeRun o1 (load_papers_data (fs.files d)).1, r.id.isSome := by
    intro r hr
    obtain ⟨k, hk, hrk⟩ := List.mem_map.mp hr
    subst hrk
    unfold mergedPaperRun
    rcases hf0 : firstOcc (load_papers_data (fs.files d)).1 k with _ | f0
    · rfl
    · have hf2 : (load_papers_data (fs.files d)).1.find? (fun q => decide (q.id = some k)) =
          some f0 := hf0
      have hp0 := List.find?_some hf2
      have hid0 : f0.id = some k := of_decide_eq_true hp0
      simp [hid0]
  have hresnd : ((canonicalMergeRun o1 (load_papers_data (fs.files d)).1).map getId).Nodup := by
    rw [canonicalMergeRun_ids]
    exact (newKeys_nodup_and _ []).1
  have hrescat : ∀ r ∈ canonicalMergeRun o1 (load_papers_data (fs.files d)).1,
      ∃ cs, r.category = some cs ∧ cs.Nodup := by
    intro r hr
    obtain ⟨k, hk, hrk⟩ := List.mem_map.mp hr
    subst hrk
    unfold mergedPaperRun
    rcases hf0 : firstOcc (load_papers_data (fs.files d)).1 k with _ | f0
    · exact ⟨[], rfl, List.nodup_nil⟩
    · exact ⟨o1 (groupCats (load_papers_data (fs.files d)).1 k), rfl, ho1nd _⟩
  have hressome : ∀ r ∈ canonicalMergeRun o1 (load_papers_data (fs.files d)).1,
      (r.category).isSome := by
    intro r hr
    obtain ⟨cs, hcs, _⟩ := hrescat r hr
    rw [hcs]
    rfl
  have hresne : canonicalMergeRun o1 (load_papers_data (fs.files d)).1 ≠ [] := by
    rcases hpp : (load_papers_data (fs.files d)).1 with _ | ⟨p0, prest⟩
    · exact absurd hpp hne
    · unfold canonicalMergeRun
      intro hc
      exact newKeys_ne_nil (List.map_eq_nil_iff.mp hc)
  have hmm2 : mergeRecordsRun o2 (canonicalMergeRun o1 (load_papers_data (fs.files d)).1) =
      .ok ((canonicalMergeRun o1 (load_papers_data (fs.files d)).1).map
        (fun p => { p with category := some (o2 (getCats p)) })) := by
    rw [mergeRecordsRun,
      mergeLoop_fresh (canonicalMergeRun o1 (load_papers_data (fs.files d)).1) []
        hresid hresnd (by simp)]
    simp only [List.nil_append, Except.bind]
    exact finalizeMergeRun_map o2 _ hressome
  refine ⟨?_, ?_, ?_⟩
  · rw [hstate]
    simp [setFile]
  · rw [hstate]
    have hfd : (setFile fs d (.good (canonicalMergeRun o1
        (load_papers_data (fs.files d)).1))).files d =
        .good (canonicalMergeRun o1 (load_papers_data (fs.files d)).1) := by
      simp [setFile]
    have h1 : ¬ (setFile fs d (.good (canonicalMergeRun o1
        (load_papers_data (fs.files d)).1))).files d = .absent := by
      rw [hfd]
      exact fun hh => FileState.noConfusion hh
    have h2 : ¬ (load_papers_data ((setFile fs d (.good (canonicalMergeRun o1
        (load_papers_data (fs.files d)).1))).files d)).1 = [] := by
      rw [hfd, load_good]
      exact hresne
    have hm3 : mergeRecordsRun o2 (load_papers_data ((setFile fs d (.good (canonicalMergeRun o1
        (load_papers_data (fs.files d)).1))).files d)).1 =
        .ok ((canonicalMergeRun o1 (load_papers_data (fs.files d)).1).map
          (fun p => { p with category := some (o2 (getCats p)) })) := by
      rw [hfd, load_good]
      exact hmm2
    have hw2 : (setFile fs d (.good (canonicalMergeRun o1
        (load_papers_data (fs.files d)).1))).writeOk d = true := hw
    simp only [perform_mergeRun, save_papers_data]
    rw [if_neg h1, if_neg h2, hm3]
    simp [hw2]
  · intro p hp
    obtain ⟨cs, hcs, hnd⟩ := hrescat p hp
    refine ⟨cs, hcs, hnd, ho2nd _, ?_⟩
    apply Finset.ext
    intro x
    simp [List.mem_toFinset, ho2m]

/-- Witness for C8 (amended) at a concrete store, with the two runs
enumerating sets in first-occurrence and reversed order. -/
theorem merge_idempotent_upto_witness :
    perform_mergeRun setListRev (perform_mergeRun setList fsMergeZ 0).2 0 =
      (.merge_success,
        setFile (perform_mergeRun setList fsMergeZ 0).2 0
          (.good ((canonicalMergeRun setList (load_papers_data (fsMergeZ.files 0)).1).map
            (fun p => { p with category := some (setListRev (getCats p)) })))) :=
  (merge_idempotent_upto setList setListRev setList_nodup setListRev_nodup
    (fun _ _ => mem_setListRev) fsMergeZ 0 (by decide)).2.1
